import Mathlib

/-!
Verification of the placement-search core of the `Course_paper` repository
(`ChessLogic.py`, with the pre-placement safety check of `Windows.py`).

The embedding mirrors the Python source:
* Python `list` indexing is partial: an index `i` with `-len ≤ i < 0` wraps to
  `len + i`, and any other out-of-range index raises `IndexError`.  We model a
  possibly-raising computation with `Option` (`none` = uncaught exception).
* `ChessFigure.possible_moves` is set to the same constant list by every
  constructor call, so it is a (constant) function of the figure here.
* A board cell is the dict `{'x': x, 'y': y, 'piece': ..., 'threatened': ...}`.
* `frozenset((p.pos_x, p.pos_y) for p in ...)` is a `Finset (Int × Int)`, and
  the Python `set` of frozensets is a `Finset` of those.
-/

namespace Chess

/-- A chess figure: `ChessFigure.__init__` stores the two coordinates. -/
structure ChessFigure where
  pos_x : Int
  pos_y : Int
deriving DecidableEq, Repr

/-- `self.possible_moves = [(-1,0),(1,0),(0,-1),(0,1),(-2,0),(2,0),(0,-2),(0,2)]`:
every figure gets the same constant list, modelled as a constant function. -/
def ChessFigure.possible_moves (_ : ChessFigure) : List (Int × Int) :=
  [(-1, 0), (1, 0), (0, -1), (0, 1), (-2, 0), (2, 0), (0, -2), (0, 2)]

/-- One cell dict of `ChessBoard.cells`. -/
structure Cell where
  x : Int
  y : Int
  piece : Option ChessFigure
  threatened : Bool
deriving DecidableEq, Repr

/-- The board: `board_size`, the row-major `cells` grid (`cells[y][x]`) and the
insertion-ordered `placed_pieces` list. -/
structure ChessBoard where
  board_size : Nat
  cells : List (List Cell)
  placed_pieces : List ChessFigure
deriving DecidableEq, Repr

/-- `ChessBoard.__init__`: an `N × N` grid of fresh cells, no placed pieces. -/
def ChessBoard.init (board_size : Nat) : ChessBoard :=
  { board_size := board_size
    cells := (List.range board_size).map fun y =>
      (List.range board_size).map fun x =>
        { x := Int.ofNat x, y := Int.ofNat y, piece := none, threatened := false }
    placed_pieces := [] }

/-- Normalise a Python list index: `0 ≤ i < len` is itself, `-len ≤ i < 0`
wraps to `len + i`, anything else raises `IndexError` (`none`). -/
def pyIdx (len : Nat) (i : Int) : Option Nat :=
  if 0 ≤ i ∧ i < (len : Int) then some i.toNat
  else if i < 0 ∧ 0 ≤ i + (len : Int) then some (i + (len : Int)).toNat
  else none

/-- Python `xs[i]` for a list. -/
def pyGet {α : Type} (xs : List α) (i : Int) : Option α := do
  let n ← pyIdx xs.length i
  xs[n]?

/-- Replace the element at (already normalised) position `i` by `f` of it;
out-of-range indices leave the list unchanged (never reached below). -/
def setAt {α : Type} : List α → Nat → (α → α) → List α
  | [], _, _ => []
  | a :: tl, 0, f => f a :: tl
  | a :: tl, n + 1, f => a :: setAt tl n f

/-- Python `self.cells[y][x]` (read). -/
def pyGet2 (cells : List (List Cell)) (x y : Int) : Option Cell := do
  let row ← pyGet cells y
  pyGet row x

/-- Python `self.cells[y][x][...] = ...` (write through both indices). -/
def pyModify2 (cells : List (List Cell)) (x y : Int) (f : Cell → Cell) :
    Option (List (List Cell)) := do
  let yi ← pyIdx cells.length y
  let row ← cells[yi]?
  let xi ← pyIdx row.length x
  pure (setAt cells yi fun r => setAt r xi f)

/-- `ChessBoard.is_position_empty`: `self.cells[pos_y][pos_x]['piece'] is None`.
No bounds check of its own: negative indices wrap, large ones raise. -/
def is_position_empty (b : ChessBoard) (pos_x pos_y : Int) : Option Bool := do
  let cell ← pyGet2 b.cells pos_x pos_y
  pure cell.piece.isNone

/-- `ChessBoard.is_position_safe`: bounds check, then emptiness, then the scan
of every placed piece's move offsets against the candidate's coordinate. -/
def is_position_safe (b : ChessBoard) (piece : ChessFigure) : Option Bool :=
  if ¬ (0 ≤ piece.pos_x ∧ piece.pos_x < (b.board_size : Int) ∧
        0 ≤ piece.pos_y ∧ piece.pos_y < (b.board_size : Int)) then
    some false
  else do
    let e ← is_position_empty b piece.pos_x piece.pos_y
    if ¬ e then
      pure false
    else
      pure (! b.placed_pieces.any fun other_piece =>
        other_piece.possible_moves.any fun d =>
          decide (other_piece.pos_x + d.1 = piece.pos_x ∧
                  other_piece.pos_y + d.2 = piece.pos_y))

/-- `self.cells[new_y][new_x]['threatened'] = True`, guarded by the bounds
check of `update_threatened_cells`. -/
def setThreatAt (cs : List (List Cell)) (new_x new_y : Int) (n : Nat) : List (List Cell) :=
  if 0 ≤ new_x ∧ new_x < (n : Int) ∧ 0 ≤ new_y ∧ new_y < (n : Int) then
    setAt cs new_y.toNat fun row => setAt row new_x.toNat fun cell =>
      { cell with threatened := true }
  else cs

/-- The inner loop of `update_threatened_cells`: mark every in-bounds offset
cell of one piece. -/
def markMoves (n : Nat) (cs : List (List Cell)) (piece : ChessFigure) : List (List Cell) :=
  piece.possible_moves.foldl
    (fun cs2 d => setThreatAt cs2 (piece.pos_x + d.1) (piece.pos_y + d.2) n) cs

/-- `ChessBoard.update_threatened_cells`: reset every `threatened` flag, then
for every placed piece mark each in-bounds offset cell. -/
def update_threatened_cells (b : ChessBoard) : ChessBoard :=
  { b with cells := b.placed_pieces.foldl (markMoves b.board_size) (b.cells.map fun row => row.map fun cell => { cell with threatened := false }) }

/-- `ChessBoard.place_piece`: emptiness (raw indexed read), then safety; on
success write the piece into its cell, append it, recompute threat flags. -/
def place_piece (b : ChessBoard) (piece : ChessFigure) : Option (Bool × ChessBoard) := do
  let e ← is_position_empty b piece.pos_x piece.pos_y
  if ¬ e then
    pure (false, b)
  else do
    let s ← is_position_safe b piece
    if ¬ s then
      pure (false, b)
    else do
      let cells1 ← pyModify2 b.cells piece.pos_x piece.pos_y fun cell =>
        { cell with piece := some piece }
      let b1 : ChessBoard :=
        { b with cells := cells1, placed_pieces := b.placed_pieces ++ [piece] }
      pure (true, update_threatened_cells b1)

/-- `ChessBoard.remove_piece`: read the cell (raw indexing); if it holds this
very piece, clear it, drop the first occurrence from `placed_pieces`
(`list.remove`, which raises if absent) and recompute threat flags. -/
def remove_piece (b : ChessBoard) (piece : ChessFigure) : Option ChessBoard := do
  let cell ← pyGet2 b.cells piece.pos_x piece.pos_y
  if cell.piece = some piece then do
    let cells1 ← pyModify2 b.cells piece.pos_x piece.pos_y fun c =>
      { c with piece := none }
    if piece ∈ b.placed_pieces then
      pure (update_threatened_cells
        { b with cells := cells1, placed_pieces := b.placed_pieces.erase piece })
    else
      none
  else
    pure b

/-- Coordinates of the placed pieces, as the Python
`frozenset((p.pos_x, p.pos_y) for p in board.placed_pieces)`. -/
def coordSet (pieces : List ChessFigure) : Finset (Int × Int) :=
  (pieces.map fun p => (p.pos_x, p.pos_y)).toFinset

/-- The row-major coordinate sequence of the solver loop:
`for y in range(N): for x in range(N)` with candidates `ChessFigure(x, y)`. -/
def solveCoords (n : Nat) : List (Int × Int) :=
  (List.range n).flatMap fun y => (List.range n).map fun x => (Int.ofNat x, Int.ofNat y)

/-- The body of `recursive_solver`'s nested loops, abstracted over the
recursive call `f`: try `place_piece` on each candidate; on success recurse
and then always `remove_piece` the just-placed figure. -/
def solveLoop (f : ChessBoard → Finset (Finset (Int × Int)) →
    Option (Finset (Finset (Int × Int)) × ChessBoard)) :
    List (Int × Int) → Finset (Finset (Int × Int)) → ChessBoard →
    Option (Finset (Finset (Int × Int)) × ChessBoard)
  | [], found, b => some (found, b)
  | c :: cs, found, b => do
    let new_piece : ChessFigure := { pos_x := c.1, pos_y := c.2 }
    let r ← place_piece b new_piece
    if r.1 then do
      let fr ← f r.2 found
      let b2 ← remove_piece fr.2 new_piece
      solveLoop f cs fr.1 b2
    else
      solveLoop f cs found r.2

/-- `recursive_solver` of `ChessSolver.find_solutions`: with no remaining
pieces, record the current placed-coordinate frozenset; otherwise loop over
all board coordinates in row-major order. -/
def recursive_solver : List Char → ChessBoard → Finset (Finset (Int × Int)) →
    Option (Finset (Finset (Int × Int)) × ChessBoard)
  | [], b, found => some (insert (coordSet b.placed_pieces) found, b)
  | _ :: rest, b, found =>
      solveLoop (fun b2 found2 => recursive_solver rest b2 found2)
        (solveCoords b.board_size) found b

/-- `ChessSolver.find_solutions`: run `recursive_solver` once per arrangement,
threading the solver's `found_solutions` set and the mutable board. -/
def find_solutions (b : ChessBoard) (piece_arrangements : List (List Char))
    (found : Finset (Finset (Int × Int))) :
    Option (Finset (Finset (Int × Int)) × ChessBoard) :=
  piece_arrangements.foldlM (fun st arrangement =>
    recursive_solver arrangement st.2 st.1) (found, b)

/-- The pre-placement loop of `ChessSolver.create_board`: each `place_piece`
result is dropped, exceptions propagate. -/
def seedLoop : ChessBoard → List (Int × Int) → Option ChessBoard
  | b, [] => some b
  | b, coordinates :: rest => do
    let r ← place_piece b { pos_x := coordinates.1, pos_y := coordinates.2 }
    seedLoop r.2 rest

/-- `ChessSolver.create_board`: build a board, seed it when `k > 0`, and pair
it with `list(set(combinations_with_replacement(' ', l)))`, which is the
single arrangement of `l` space characters. -/
def create_board (n : Nat) (l : Nat) (k : Int) (initial_pieces : List (Int × Int)) :
    Option (ChessBoard × List (List Char)) := do
  let board ← if 0 < k then seedLoop (ChessBoard.init n) initial_pieces
              else pure (ChessBoard.init n)
  pure (board, [List.replicate l ' '])

/-- One formatted coordinate pair, Python's `f"({x}, {y})"`. -/
def fmtCoord (c : Int × Int) : String :=
  "(" ++ toString c.1 ++ ", " ++ toString c.2 ++ ")"

/-- One output line of `save_results`: `" ".join(f"({x}, {y})" for x, y in
solution)`, for a given iteration order of the frozenset. -/
def fmtSolution (solution : List (Int × Int)) : String :=
  String.intercalate " " (solution.map fmtCoord)

/-- `ChessSolver.save_results`, as the list of lines written to the file (each
followed by a newline).  Python iterates the solution set and each frozenset
in an unspecified order, so the function takes the enumerations as lists: one
line per solution when the set is truthy, else the single literal line
`"no solutions"`. -/
def save_results (solutions : List (List (Int × Int))) : List String :=
  if solutions ≠ [] then
    solutions.map fmtSolution
  else
    ["no solutions"]

/-- `CoordinatesInputDialog._check_safety` (`Windows.py`): place the given
coordinates one by one on a temporary board; `false` as soon as one
`place_piece` fails, `true` if all succeed. -/
def check_safety_loop : ChessBoard → List (Int × Int) → Option Bool
  | _, [] => some true
  | temp_board, c :: rest => do
    let r ← place_piece temp_board { pos_x := c.1, pos_y := c.2 }
    if r.1 then check_safety_loop r.2 rest else pure false

/-- `CoordinatesInputDialog._check_safety` proper: fresh temporary board. -/
def check_safety (pieces_positions : List (Int × Int)) (board_size : Nat) : Option Bool :=
  check_safety_loop (ChessBoard.init board_size) pieces_positions

/-! ### Derived notions used by the specification -/

/-- Piece `q` threatens coordinate `(x, y)`: some move offset of `q` lands
exactly there.  This is the scan `is_position_safe` performs per placed
piece, and also what `update_threatened_cells` marks (modulo bounds). -/
def threatens (q : ChessFigure) (x y : Int) : Prop :=
  ∃ d ∈ q.possible_moves, q.pos_x + d.1 = x ∧ q.pos_y + d.2 = y

instance (q : ChessFigure) (x y : Int) : Decidable (threatens q x y) := by
  unfold threatens; infer_instance

/-- Cell of the grid at proper (non-wrapping) indices. -/
def cellAt (b : ChessBoard) (x y : Nat) : Option Cell :=
  b.cells[y]?.bind fun row => row[x]?

/-- The grid really is `board_size × board_size`. -/
abbrev Rect (b : ChessBoard) : Prop :=
  b.cells.length = b.board_size ∧ ∀ row ∈ b.cells, row.length = b.board_size

/-! ### List and index lemmas -/

theorem setAt_length {α : Type} (xs : List α) (i : Nat) (f : α → α) :
    (setAt xs i f).length = xs.length := by
  induction xs generalizing i with
  | nil => rfl
  | cons a tl ih =>
    cases i with
    | zero => rfl
    | succ n => simp [setAt, ih]

theorem getElem?_setAt {α : Type} (xs : List α) (i : Nat) (f : α → α) (j : Nat) :
    (setAt xs i f)[j]? = if i = j then xs[j]?.map f else xs[j]? := by
  induction xs generalizing i j with
  | nil => simp [setAt]
  | cons a tl ih =>
    cases i with
    | zero =>
      cases j with
      | zero => simp [setAt]
      | succ m => simp [setAt]
    | succ n =>
      cases j with
      | zero => simp [setAt]
      | succ m => simpa [setAt, Nat.succ_inj] using ih n m

theorem pyIdx_of_nonneg {len : Nat} {i : Int} (h0 : 0 ≤ i) (h1 : i < (len : Int)) :
    pyIdx len i = some i.toNat := by
  simp [pyIdx, h0, h1]

theorem pyIdx_of_neg {len : Nat} {i : Int} (h0 : i < 0) (h1 : 0 ≤ i + (len : Int)) :
    pyIdx len i = some (i + (len : Int)).toNat := by
  have hno : ¬ (0 ≤ i ∧ i < (len : Int)) := by omega
  simp [pyIdx, hno, h0, h1]

theorem pyIdx_eq_none {len : Nat} {i : Int}
    (h : ¬ (-(len : Int) ≤ i ∧ i < (len : Int))) : pyIdx len i = none := by
  have h1 : ¬ (0 ≤ i ∧ i < (len : Int)) := by omega
  have h2 : ¬ (i < 0 ∧ 0 ≤ i + (len : Int)) := by omega
  simp [pyIdx, h1, h2]

theorem pyIdx_isSome {len : Nat} {i : Int} {n : Nat} (h : pyIdx len i = some n) :
    -(len : Int) ≤ i ∧ i < (len : Int) ∧ n < len := by
  unfold pyIdx at h
  split at h
  · rename_i hc
    obtain ⟨h0, h1⟩ := hc
    injection h with h
    omega
  · split at h
    · rename_i hc
      obtain ⟨h0, h1⟩ := hc
      injection h with h
      omega
    · exact absurd h (by simp)

theorem pyGet_def {α : Type} (xs : List α) (i : Int) :
    pyGet xs i = (pyIdx xs.length i).bind fun n => xs[n]? := rfl

theorem pyGet_of_nonneg {α : Type} {xs : List α} {i : Int} (h0 : 0 ≤ i)
    (h1 : i < (xs.length : Int)) : pyGet xs i = xs[i.toNat]? := by
  simp [pyGet_def, pyIdx_of_nonneg h0 h1]

theorem pyGet_eq_some {α : Type} {xs : List α} {i : Int} {a : α}
    (h : pyGet xs i = some a) :
    ∃ n, pyIdx xs.length i = some n ∧ n < xs.length ∧ xs[n]? = some a := by
  rw [pyGet_def] at h
  cases hidx : pyIdx xs.length i with
  | none => simp [hidx] at h
  | some n =>
    refine ⟨n, rfl, (pyIdx_isSome hidx).2.2, ?_⟩
    simpa [hidx] using h

theorem pyGet_isSome {α : Type} {xs : List α} {i : Int}
    (h : -(xs.length : Int) ≤ i ∧ i < (xs.length : Int)) : (pyGet xs i).isSome := by
  rw [pyGet_def]
  rcases Int.lt_or_le i 0 with hneg | hpos
  · rw [pyIdx_of_neg hneg (by omega)]
    have : (i + (xs.length : Int)).toNat < xs.length := by omega
    simp [List.getElem?_eq_getElem this]
  · rw [pyIdx_of_nonneg hpos (by omega)]
    have : i.toNat < xs.length := by omega
    simp [List.getElem?_eq_getElem this]

theorem pyGet_eq_none {α : Type} {xs : List α} {i : Int}
    (h : ¬ (-(xs.length : Int) ≤ i ∧ i < (xs.length : Int))) : pyGet xs i = none := by
  rw [pyGet_def, pyIdx_eq_none h]
  rfl

/-! ### Grid shape and pointwise access -/

/-- Cell of a raw grid at proper indices. -/
def gget (g : List (List Cell)) (x y : Nat) : Option Cell :=
  g[y]?.bind fun row => row[x]?

theorem cellAt_eq_gget (b : ChessBoard) (x y : Nat) : cellAt b x y = gget b.cells x y := rfl

/-- Two grids of the same row structure. -/
abbrev sameShape (g1 g2 : List (List Cell)) : Prop :=
  g1.length = g2.length ∧ ∀ y : Nat, (g1[y]?).map List.length = (g2[y]?).map List.length

theorem sameShape_refl (g : List (List Cell)) : sameShape g g := ⟨rfl, fun _ => rfl⟩

theorem sameShape_trans {g1 g2 g3 : List (List Cell)} (h1 : sameShape g1 g2)
    (h2 : sameShape g2 g3) : sameShape g1 g3 :=
  ⟨h1.1.trans h2.1, fun y => (h1.2 y).trans (h2.2 y)⟩

theorem sameShape_setAt (g : List (List Cell)) (i : Nat) (f : List Cell → List Cell)
    (hf : ∀ row, (f row).length = row.length) : sameShape (setAt g i f) g := by
  refine ⟨setAt_length g i f, fun y => ?_⟩
  rw [getElem?_setAt]
  split
  · cases hg : g[y]? with
    | none => rfl
    | some row => simp [hf row]
  · rfl

theorem sameShape_setThreatAt (cs : List (List Cell)) (nx ny : Int) (n : Nat) :
    sameShape (setThreatAt cs nx ny n) cs := by
  unfold setThreatAt
  split
  · exact sameShape_setAt cs _ _ fun row => setAt_length row _ _
  · exact sameShape_refl cs

theorem sameShape_markMoves (n : Nat) (cs : List (List Cell)) (p : ChessFigure) :
    sameShape (markMoves n cs p) cs := by
  unfold markMoves
  generalize p.possible_moves = ds
  induction ds generalizing cs with
  | nil => exact sameShape_refl cs
  | cons d ds ih =>
    exact sameShape_trans (ih (setThreatAt cs (p.pos_x + d.1) (p.pos_y + d.2) n))
      (sameShape_setThreatAt cs _ _ n)

theorem sameShape_foldl_markMoves (n : Nat) (ps : List ChessFigure)
    (cs : List (List Cell)) : sameShape (ps.foldl (markMoves n) cs) cs := by
  induction ps generalizing cs with
  | nil => exact sameShape_refl cs
  | cons p ps ih =>
    exact sameShape_trans (ih (markMoves n cs p)) (sameShape_markMoves n cs p)

theorem sameShape_reset (g : List (List Cell)) :
    sameShape (g.map fun row => row.map fun cell => { cell with threatened := false }) g := by
  refine ⟨by simp, fun y => ?_⟩
  cases hg : g[y]? with
  | none => simp [hg]
  | some row => simp [hg]

theorem sameShape_update (b : ChessBoard) :
    sameShape (update_threatened_cells b).cells b.cells := by
  unfold update_threatened_cells
  exact sameShape_trans (sameShape_foldl_markMoves _ _ _) (sameShape_reset _)

theorem grid_ext {g1 g2 : List (List Cell)} (hshape : sameShape g1 g2)
    (hcell : ∀ x y, gget g1 x y = gget g2 x y) : g1 = g2 := by
  apply List.ext_getElem?
  intro y
  cases h1 : g1[y]? with
  | none =>
    cases h2 : g2[y]? with
    | none => rfl
    | some r2 =>
      have := hshape.2 y
      rw [h1, h2] at this
      simp at this
  | some r1 =>
    cases h2 : g2[y]? with
    | none =>
      have := hshape.2 y
      rw [h1, h2] at this
      simp at this
    | some r2 =>
      have hlen : r1.length = r2.length := by
        have := hshape.2 y
        rw [h1, h2] at this
        simpa using this
      have hr : r1 = r2 := by
        apply List.ext_getElem?
        intro x
        have := hcell x y
        rw [gget, gget, h1, h2] at this
        simpa using this
      rw [hr]

/-! ### Characterisation of `update_threatened_cells` -/

/-- Set the `threatened` flag when `h` holds. -/
def markThr (h : Bool) (c : Cell) : Cell :=
  if h then { c with threatened := true } else c

theorem markThr_markThr (h1 h2 : Bool) (c : Cell) :
    markThr h1 (markThr h2 c) = markThr (h2 || h1) c := by
  cases h1 <;> cases h2 <;> simp [markThr]

theorem gget_setThreatAt (cs : List (List Cell)) (nx ny : Int) (n : Nat) (x y : Nat)
    (hx : x < n) (hy : y < n) :
    gget (setThreatAt cs nx ny n) x y =
      (gget cs x y).map (markThr (decide (nx = (x : Int) ∧ ny = (y : Int)))) := by
  unfold setThreatAt
  split
  · rename_i hin
    obtain ⟨hx0, hxn, hy0, hyn⟩ := hin
    unfold gget
    rw [getElem?_setAt]
    by_cases hyeq : ny = (y : Int)
    · have : ny.toNat = y := by omega
      rw [if_pos this]
      cases hrow : cs[y]? with
      | none => simp
      | some row =>
        simp only [Option.map_some', Option.some_bind]
        rw [getElem?_setAt]
        by_cases hxeq : nx = (x : Int)
        · have : nx.toNat = x := by omega
          rw [if_pos this]
          cases hc : row[x]? with
          | none => simp
          | some c => simp [markThr, hxeq, hyeq]
        · have : ¬ nx.toNat = x := by omega
          rw [if_neg this]
          cases hc : row[x]? with
          | none => simp
          | some c => simp [markThr, hxeq]
    · have : ¬ ny.toNat = y := by omega
      rw [if_neg this]
      cases hrow : cs[y]? with
      | none => simp [gget]
      | some row =>
        cases hc : row[x]? with
        | none => simp [gget, hrow, hc]
        | some c => simp [gget, hrow, hc, markThr, hyeq]
  · rename_i hin
    have hdec : ¬ (nx = (x : Int) ∧ ny = (y : Int)) := by
      rintro ⟨rfl, rfl⟩
      exact hin (by omega)
    cases hc : gget cs x y with
    | none => simp
    | some c => simp [markThr, hdec]

theorem gget_markMoves_aux (p : ChessFigure) (n : Nat) (ds : List (Int × Int))
    (cs : List (List Cell)) (x y : Nat) (hx : x < n) (hy : y < n) :
    gget (ds.foldl (fun cs2 d => setThreatAt cs2 (p.pos_x + d.1) (p.pos_y + d.2) n) cs) x y =
      (gget cs x y).map (markThr (decide (∃ d ∈ ds,
        p.pos_x + d.1 = (x : Int) ∧ p.pos_y + d.2 = (y : Int)))) := by
  induction ds generalizing cs with
  | nil =>
    cases hc : gget cs x y with
    | none => simp [hc]
    | some c => simp [hc, markThr]
  | cons d ds ih =>
    rw [List.foldl_cons, ih, gget_setThreatAt cs _ _ n x y hx hy]
    cases hc : gget cs x y with
    | none => simp
    | some c =>
      simp only [Option.map_some', Option.some_inj]
      rw [markThr_markThr]
      congr 1
      rw [← Bool.decide_or]
      refine decide_eq_decide.mpr ?_
      simp only [List.mem_cons]
      constructor
      · rintro (h | ⟨e, he, hhit⟩)
        · exact ⟨d, Or.inl rfl, by simpa using h⟩
        · exact ⟨e, Or.inr he, hhit⟩
      · rintro ⟨e, (rfl | he), hhit⟩
        · exact Or.inl (by simpa using hhit)
        · exact Or.inr ⟨e, he, hhit⟩

theorem gget_markMoves (n : Nat) (cs : List (List Cell)) (p : ChessFigure) (x y : Nat)
    (hx : x < n) (hy : y < n) :
    gget (markMoves n cs p) x y =
      (gget cs x y).map (markThr (decide (threatens p (x : Int) (y : Int)))) := by
  unfold markMoves threatens
  exact gget_markMoves_aux p n _ cs x y hx hy

theorem gget_foldl_markMoves (n : Nat) (ps : List ChessFigure) (cs : List (List Cell))
    (x y : Nat) (hx : x < n) (hy : y < n) :
    gget (ps.foldl (markMoves n) cs) x y =
      (gget cs x y).map (markThr (decide (∃ p ∈ ps, threatens p (x : Int) (y : Int)))) := by
  induction ps generalizing cs with
  | nil =>
    cases hc : gget cs x y with
    | none => simp [hc]
    | some c => simp [hc, markThr]
  | cons p ps ih =>
    rw [List.foldl_cons, ih, gget_markMoves n cs p x y hx hy]
    cases hc : gget cs x y with
    | none => simp
    | some c =>
      simp only [Option.map_some', Option.some_inj]
      rw [markThr_markThr]
      congr 1
      rw [← Bool.decide_or]
      refine decide_eq_decide.mpr ?_
      simp only [List.mem_cons]
      constructor
      · rintro (h | ⟨q, hq, hth⟩)
        · exact ⟨p, Or.inl rfl, h⟩
        · exact ⟨q, Or.inr hq, hth⟩
      · rintro ⟨q, (rfl | hq), hth⟩
        · exact Or.inl hth
        · exact Or.inr ⟨q, hq, hth⟩

theorem gget_reset (g : List (List Cell)) (x y : Nat) :
    gget (g.map fun row => row.map fun cell => { cell with threatened := false }) x y =
      (gget g x y).map fun c => { c with threatened := false } := by
  unfold gget
  cases hg : g[y]? with
  | none => simp [hg]
  | some row => simp [hg]

/-- Pointwise description of `update_threatened_cells`: within the board
bounds, every cell keeps its occupancy and its `threatened` flag becomes
exactly "some placed piece threatens this coordinate". -/
theorem cellAt_update (b : ChessBoard) (x y : Nat) (hx : x < b.board_size)
    (hy : y < b.board_size) :
    cellAt (update_threatened_cells b) x y = (cellAt b x y).map fun c =>
      { c with threatened := decide (∃ p ∈ b.placed_pieces, threatens p (x : Int) (y : Int)) } := by
  rw [cellAt_eq_gget, cellAt_eq_gget]
  unfold update_threatened_cells
  rw [gget_foldl_markMoves _ _ _ x y hx hy, gget_reset]
  cases hc : gget b.cells x y with
  | none => simp [hc]
  | some c =>
    simp only [hc, Option.map_some', Option.some_inj]
    by_cases h : ∃ p ∈ b.placed_pieces, threatens p (x : Int) (y : Int) <;>
      simp [markThr, h]

theorem update_board_size (b : ChessBoard) :
    (update_threatened_cells b).board_size = b.board_size := rfl

theorem update_placed (b : ChessBoard) :
    (update_threatened_cells b).placed_pieces = b.placed_pieces := rfl

end Chess

namespace Chess

/-! ### Rectangularity and cell access -/

theorem rect_row {b : ChessBoard} (hr : Rect b) {y : Nat} (hy : y < b.board_size) :
    ∃ row, b.cells[y]? = some row ∧ row.length = b.board_size := by
  have hylen : y < b.cells.length := by rw [hr.1]; exact hy
  refine ⟨b.cells[y], by simp [List.getElem?_eq_getElem hylen], ?_⟩
  exact hr.2 _ (List.getElem_mem hylen)

theorem cellAt_isSome_of_lt {b : ChessBoard} (hr : Rect b) {x y : Nat}
    (hx : x < b.board_size) (hy : y < b.board_size) : ∃ c, cellAt b x y = some c := by
  obtain ⟨row, hrow, hlen⟩ := rect_row hr hy
  have hxlen : x < row.length := by rw [hlen]; exact hx
  exact ⟨row[x], by simp [cellAt, hrow, List.getElem?_eq_getElem hxlen]⟩

theorem cellAt_none_of_ge {b : ChessBoard} (hr : Rect b) {x y : Nat}
    (h : b.board_size ≤ x ∨ b.board_size ≤ y) : cellAt b x y = none := by
  rcases h with hx | hy
  · unfold cellAt
    cases hrow : b.cells[y]? with
    | none => rfl
    | some row =>
      have : row ∈ b.cells := by
        rw [List.mem_iff_getElem?]
        exact ⟨y, hrow⟩
      have hlen : row.length = b.board_size := hr.2 _ this
      simp [List.getElem?_eq_none, hlen, hx]
  · unfold cellAt
    have : b.cells[y]? = none := by
      apply List.getElem?_eq_none
      rw [hr.1]
      exact hy
    simp [this]

theorem cellAt_lt {b : ChessBoard} (hr : Rect b) {x y : Nat} {c : Cell}
    (h : cellAt b x y = some c) : x < b.board_size ∧ y < b.board_size := by
  by_contra hcon
  rw [cellAt_none_of_ge hr (by omega)] at h
  exact Option.noConfusion h

theorem pyGet2_eq_cellAt {b : ChessBoard} (hr : Rect b) {x y : Int}
    (hx0 : 0 ≤ x) (hx1 : x < (b.board_size : Int)) (hy0 : 0 ≤ y)
    (hy1 : y < (b.board_size : Int)) :
    pyGet2 b.cells x y = cellAt b x.toNat y.toNat := by
  unfold pyGet2 cellAt
  have hylen : y < (b.cells.length : Int) := by rw [hr.1]; exact_mod_cast hy1
  rw [pyGet_of_nonneg hy0 hylen]
  cases hrow : b.cells[y.toNat]? with
  | none => rfl
  | some row =>
    have hmem : row ∈ b.cells := by
      rw [List.mem_iff_getElem?]
      exact ⟨y.toNat, hrow⟩
    have hxlen : x < (row.length : Int) := by
      rw [hr.2 _ hmem]
      exact_mod_cast hx1
    simp only [Option.bind_eq_bind, Option.some_bind]
    rw [pyGet_of_nonneg hx0 hxlen]

theorem pyGet2_isSome {b : ChessBoard} (hr : Rect b) {x y : Int}
    (hx : -(b.board_size : Int) ≤ x ∧ x < (b.board_size : Int))
    (hy : -(b.board_size : Int) ≤ y ∧ y < (b.board_size : Int)) :
    ∃ c, pyGet2 b.cells x y = some c := by
  unfold pyGet2
  have hylen : -(b.cells.length : Int) ≤ y ∧ y < (b.cells.length : Int) := by
    rw [hr.1]; exact hy
  obtain ⟨row, hrow⟩ := Option.isSome_iff_exists.mp (pyGet_isSome hylen)
  rw [hrow]
  simp only [Option.bind_eq_bind, Option.some_bind]
  have hmem : row ∈ b.cells := by
    obtain ⟨n, _, _, hn⟩ := pyGet_eq_some hrow
    rw [List.mem_iff_getElem?]
    exact ⟨n, hn⟩
  have hxlen : -(row.length : Int) ≤ x ∧ x < (row.length : Int) := by
    rw [hr.2 _ hmem]; exact hx
  exact Option.isSome_iff_exists.mp (pyGet_isSome hxlen)

theorem pyGet2_eq_none {b : ChessBoard} (hr : Rect b) {x y : Int}
    (h : ¬ (-(b.board_size : Int) ≤ x ∧ x < (b.board_size : Int) ∧
            -(b.board_size : Int) ≤ y ∧ y < (b.board_size : Int))) :
    pyGet2 b.cells x y = none := by
  unfold pyGet2
  by_cases hy : -(b.board_size : Int) ≤ y ∧ y < (b.board_size : Int)
  · have hylen : -(b.cells.length : Int) ≤ y ∧ y < (b.cells.length : Int) := by
      rw [hr.1]; exact hy
    obtain ⟨row, hrow⟩ := Option.isSome_iff_exists.mp (pyGet_isSome hylen)
    rw [hrow]
    simp only [Option.bind_eq_bind, Option.some_bind]
    have hmem : row ∈ b.cells := by
      obtain ⟨n, _, _, hn⟩ := pyGet_eq_some hrow
      rw [List.mem_iff_getElem?]
      exact ⟨n, hn⟩
    apply pyGet_eq_none
    rw [hr.2 _ hmem]
    tauto
  · have : pyGet b.cells y = none := by
      apply pyGet_eq_none
      rw [hr.1]
      tauto
    rw [this]
    rfl

/-- Pointwise description of writing one cell through `setAt` at both levels. -/
theorem gget_setCell (g : List (List Cell)) (ix iy : Nat) (f : Cell → Cell) (x y : Nat) :
    gget (setAt g iy fun r => setAt r ix f) x y =
      (gget g x y).map fun c => if ix = x ∧ iy = y then f c else c := by
  unfold gget
  rw [getElem?_setAt]
  by_cases hyeq : iy = y
  · rw [if_pos hyeq]
    cases hrow : g[y]? with
    | none => rfl
    | some row =>
      simp only [Option.map_some', Option.some_bind]
      rw [getElem?_setAt]
      by_cases hxeq : ix = x
      · rw [if_pos hxeq]
        cases hc : row[x]? with
        | none => rfl
        | some c => simp [hxeq, hyeq]
      · rw [if_neg hxeq]
        cases hc : row[x]? with
        | none => rfl
        | some c => simp [hxeq]
  · rw [if_neg hyeq]
    cases hrow : g[y]? with
    | none => rfl
    | some row =>
      cases hc : row[x]? with
      | none => simp [hrow, hc]
      | some c => simp [hrow, hc, hyeq]

end Chess

namespace Chess

/-! ### Characterisation of the safety predicate and `place_piece` -/

theorem is_position_empty_def (b : ChessBoard) (x y : Int) :
    is_position_empty b x y = (pyGet2 b.cells x y).map fun c => c.piece.isNone := by
  unfold is_position_empty
  cases h : pyGet2 b.cells x y <;> simp [h, Option.bind_eq_bind]

/-- What `is_position_safe` decides, as a proposition. -/
def SafePred (b : ChessBoard) (p : ChessFigure) : Prop :=
  (0 ≤ p.pos_x ∧ p.pos_x < (b.board_size : Int) ∧
   0 ≤ p.pos_y ∧ p.pos_y < (b.board_size : Int)) ∧
  (∃ c, cellAt b p.pos_x.toNat p.pos_y.toNat = some c ∧ c.piece = none) ∧
  (∀ q ∈ b.placed_pieces, ¬ threatens q p.pos_x p.pos_y)

theorem is_position_safe_isSome {b : ChessBoard} (hr : Rect b) (p : ChessFigure) :
    ∃ s, is_position_safe b p = some s := by
  unfold is_position_safe
  split
  · exact ⟨false, rfl⟩
  · rename_i hb
    push_neg at hb
    obtain ⟨hx0, hx1, hy0, hy1⟩ := hb
    obtain ⟨c, hc⟩ := cellAt_isSome_of_lt hr (x := p.pos_x.toNat) (y := p.pos_y.toNat)
      (by omega) (by omega)
    rw [is_position_empty_def, pyGet2_eq_cellAt hr hx0 hx1 hy0 hy1, hc]
    simp only [Option.pure_def, Option.map_some', Option.bind_eq_bind, Option.some_bind]
    by_cases hemp : c.piece.isNone = true
    · rw [if_neg (by simp [hemp])]
      exact ⟨_, rfl⟩
    · rw [if_pos (by simp [hemp])]
      exact ⟨false, rfl⟩

theorem is_position_safe_true_iff {b : ChessBoard} (hr : Rect b) (p : ChessFigure) :
    is_position_safe b p = some true ↔ SafePred b p := by
  unfold is_position_safe
  split
  · rename_i hb
    constructor
    · intro h
      exact absurd h (by simp)
    · rintro ⟨hbb, -, -⟩
      exact absurd hbb hb
  · rename_i hb
    push_neg at hb
    obtain ⟨hx0, hx1, hy0, hy1⟩ := hb
    obtain ⟨c, hc⟩ := cellAt_isSome_of_lt hr (x := p.pos_x.toNat) (y := p.pos_y.toNat)
      (by omega) (by omega)
    rw [is_position_empty_def, pyGet2_eq_cellAt hr hx0 hx1 hy0 hy1, hc]
    simp only [Option.pure_def, Option.map_some', Option.bind_eq_bind, Option.some_bind]
    by_cases hemp : c.piece.isNone = true
    · rw [if_neg (by simp [hemp])]
      constructor
      · intro h
        injection h with h
        refine ⟨⟨hx0, hx1, hy0, hy1⟩, ⟨c, hc, Option.isNone_iff_eq_none.mp hemp⟩, ?_⟩
        rintro q hq ⟨d, hd, hh1, hh2⟩
        have hany : (b.placed_pieces.any fun other_piece =>
            other_piece.possible_moves.any fun d =>
              decide (other_piece.pos_x + d.1 = p.pos_x ∧
                      other_piece.pos_y + d.2 = p.pos_y)) = true := by
          rw [List.any_eq_true]
          refine ⟨q, hq, ?_⟩
          rw [List.any_eq_true]
          exact ⟨d, hd, by simp [hh1, hh2]⟩
        rw [hany] at h
        simp at h
      · rintro ⟨-, -, hnth⟩
        have hany : (b.placed_pieces.any fun other_piece =>
            other_piece.possible_moves.any fun d =>
              decide (other_piece.pos_x + d.1 = p.pos_x ∧
                      other_piece.pos_y + d.2 = p.pos_y)) = false := by
          rw [← Bool.not_eq_true, List.any_eq_true]
          rintro ⟨q, hq, hany2⟩
          rw [List.any_eq_true] at hany2
          obtain ⟨d, hd, hhit⟩ := hany2
          rw [decide_eq_true_eq] at hhit
          exact hnth q hq ⟨d, hd, hhit.1, hhit.2⟩
        rw [hany]
        rfl
    · rw [if_pos (by simp [hemp])]
      constructor
      · intro h
        exact absurd h (by simp)
      · rintro ⟨-, ⟨c2, hc2, hnone⟩, -⟩
        rw [hc] at hc2
        injection hc2 with hc2
        subst hc2
        rw [hnone] at hemp
        simp at hemp

theorem is_position_safe_false_iff {b : ChessBoard} (hr : Rect b) (p : ChessFigure) :
    is_position_safe b p = some false ↔ ¬ SafePred b p := by
  obtain ⟨s, hs⟩ := is_position_safe_isSome hr p
  rw [← is_position_safe_true_iff hr p]
  cases s with
  | true => simp [hs]
  | false => simp [hs]

/-- The board `place_piece` hands back on success (writes the cell, appends
the piece, recomputes threat flags). -/
def placeBoard (b : ChessBoard) (p : ChessFigure) : ChessBoard :=
  update_threatened_cells
    { b with
      cells := setAt b.cells p.pos_y.toNat fun r => setAt r p.pos_x.toNat fun c =>
        { c with piece := some p }
      placed_pieces := b.placed_pieces ++ [p] }

theorem place_piece_of_safe {b : ChessBoard} (hr : Rect b) {p : ChessFigure}
    (hs : is_position_safe b p = some true) :
    place_piece b p = some (true, placeBoard b p) := by
  obtain ⟨⟨hx0, hx1, hy0, hy1⟩, ⟨c, hc, hcnone⟩, -⟩ := (is_position_safe_true_iff hr p).mp hs
  unfold place_piece
  rw [is_position_empty_def, pyGet2_eq_cellAt hr hx0 hx1 hy0 hy1, hc]
  simp only [Option.map_some', Option.bind_eq_bind, Option.some_bind, hcnone,
    Option.isNone_none, Bool.not_true, if_false]
  rw [if_neg (by simp)]
  rw [hs]
  simp only [Option.some_bind, Bool.not_true, if_false]
  rw [if_neg (by simp)]
  have hmod : pyModify2 b.cells p.pos_x p.pos_y (fun cell => { cell with piece := some p }) =
      some (setAt b.cells p.pos_y.toNat fun r => setAt r p.pos_x.toNat fun cell =>
        { cell with piece := some p }) := by
    unfold pyModify2
    have hylen : p.pos_y < (b.cells.length : Int) := by rw [hr.1]; exact_mod_cast hy1
    rw [pyIdx_of_nonneg hy0 hylen]
    obtain ⟨row, hrow, hrowlen⟩ := rect_row hr (y := p.pos_y.toNat) (by omega)
    simp only [Option.bind_eq_bind, Option.some_bind, hrow]
    have hxlen : p.pos_x < (row.length : Int) := by rw [hrowlen]; exact_mod_cast hx1
    rw [pyIdx_of_nonneg hx0 hxlen]
    rfl
  rw [hmod]
  rfl

theorem place_piece_of_failed_check {b : ChessBoard} (hr : Rect b) {p : ChessFigure}
    (hx : -(b.board_size : Int) ≤ p.pos_x ∧ p.pos_x < (b.board_size : Int))
    (hy : -(b.board_size : Int) ≤ p.pos_y ∧ p.pos_y < (b.board_size : Int))
    (hs : is_position_safe b p = some false) :
    place_piece b p = some (false, b) := by
  obtain ⟨c, hc⟩ := pyGet2_isSome hr hx hy
  unfold place_piece
  rw [is_position_empty_def, hc]
  cases hpc : c.piece.isNone with
  | false => simp [Option.bind_eq_bind, hpc]
  | true =>
    simp only [Option.map_some', Option.bind_eq_bind, Option.some_bind, hpc,
      Bool.not_true, if_false]
    rw [if_neg (by simp), hs]
    simp

theorem place_piece_none {b : ChessBoard} (hr : Rect b) {p : ChessFigure}
    (h : ¬ (-(b.board_size : Int) ≤ p.pos_x ∧ p.pos_x < (b.board_size : Int) ∧
            -(b.board_size : Int) ≤ p.pos_y ∧ p.pos_y < (b.board_size : Int))) :
    place_piece b p = none := by
  unfold place_piece
  rw [is_position_empty_def, pyGet2_eq_none hr h]
  rfl

theorem place_piece_true_iff {b b2 : ChessBoard} (hr : Rect b) (p : ChessFigure) :
    place_piece b p = some (true, b2) ↔
      is_position_safe b p = some true ∧ b2 = placeBoard b p := by
  constructor
  · intro h
    by_cases hread : -(b.board_size : Int) ≤ p.pos_x ∧ p.pos_x < (b.board_size : Int) ∧
        -(b.board_size : Int) ≤ p.pos_y ∧ p.pos_y < (b.board_size : Int)
    · obtain ⟨s, hs⟩ := is_position_safe_isSome hr p
      cases s with
      | true =>
        rw [place_piece_of_safe hr hs] at h
        injection h with h
        exact ⟨hs, (Prod.mk.injEq _ _ _ _ ▸ h).2.symm⟩
      | false =>
        rw [place_piece_of_failed_check hr ⟨hread.1, hread.2.1⟩ ⟨hread.2.2.1, hread.2.2.2⟩ hs] at h
        injection h with h
        exact absurd (Prod.mk.injEq _ _ _ _ ▸ h).1 (by simp)
    · rw [place_piece_none hr hread] at h
      exact Option.noConfusion h
  · rintro ⟨hs, rfl⟩
    exact place_piece_of_safe hr hs

theorem place_piece_false_board {b b2 : ChessBoard} (hr : Rect b) {p : ChessFigure}
    (h : place_piece b p = some (false, b2)) : b2 = b := by
  by_cases hread : -(b.board_size : Int) ≤ p.pos_x ∧ p.pos_x < (b.board_size : Int) ∧
      -(b.board_size : Int) ≤ p.pos_y ∧ p.pos_y < (b.board_size : Int)
  · obtain ⟨s, hs⟩ := is_position_safe_isSome hr p
    cases s with
    | true =>
      rw [place_piece_of_safe hr hs] at h
      injection h with h
      exact absurd (Prod.mk.injEq _ _ _ _ ▸ h).1 (by simp)
    | false =>
      rw [place_piece_of_failed_check hr ⟨hread.1, hread.2.1⟩ ⟨hread.2.2.1, hread.2.2.2⟩ hs] at h
      injection h with h
      exact (Prod.mk.injEq _ _ _ _ ▸ h).2.symm
  · rw [place_piece_none hr hread] at h
    exact Option.noConfusion h

end Chess

namespace Chess

/-! ### The board well-formedness invariant -/

/-- Well-formedness of a board: rectangular grid, occupancy is exactly the
placed-piece list (each cell holds at most the one piece whose coordinates
point there), placed pieces are in bounds and pairwise distinct, and every
`threatened` flag agrees with a full recomputation over the placed set. -/
structure WF (b : ChessBoard) : Prop where
  rect : Rect b
  occ : ∀ x y : Nat, ∀ c : Cell, cellAt b x y = some c → ∀ q : ChessFigure,
      c.piece = some q → q.pos_x = (x : Int) ∧ q.pos_y = (y : Int) ∧ q ∈ b.placed_pieces
  placed_in : ∀ q ∈ b.placed_pieces, 0 ≤ q.pos_x ∧ q.pos_x < (b.board_size : Int) ∧
      0 ≤ q.pos_y ∧ q.pos_y < (b.board_size : Int)
  placed_cell : ∀ q ∈ b.placed_pieces,
      ∃ c, cellAt b q.pos_x.toNat q.pos_y.toNat = some c ∧ c.piece = some q
  nd : b.placed_pieces.Nodup
  threat_ok : ∀ x y : Nat, ∀ c : Cell, cellAt b x y = some c →
      (c.threatened = true ↔ ∃ q ∈ b.placed_pieces, threatens q (x : Int) (y : Int))

theorem decide_eq_of_iff (t : Bool) {P : Prop} [Decidable P] (h : t = true ↔ P) :
    decide P = t := by
  cases t with
  | true => simp [h.mp rfl]
  | false =>
    have : ¬ P := fun hp => by simpa using h.mpr hp
    simp [this]

theorem safe_not_mem {b : ChessBoard} (hWF : WF b) {p : ChessFigure}
    (hs : is_position_safe b p = some true) : p ∉ b.placed_pieces := by
  obtain ⟨-, ⟨c, hc, hcnone⟩, -⟩ := (is_position_safe_true_iff hWF.rect p).mp hs
  intro hmem
  obtain ⟨c2, hc2, hc2p⟩ := hWF.placed_cell p hmem
  rw [hc] at hc2
  injection hc2 with hc2
  subst hc2
  rw [hcnone] at hc2p
  exact Option.noConfusion hc2p

theorem rect_of_shape {b b2 : ChessBoard} (hr : Rect b) (hsize : b2.board_size = b.board_size)
    (hsh : sameShape b2.cells b.cells) : Rect b2 := by
  refine ⟨by rw [hsize, hsh.1, hr.1], ?_⟩
  intro row hrow
  rw [List.mem_iff_getElem?] at hrow
  obtain ⟨y, hy⟩ := hrow
  have := hsh.2 y
  rw [hy] at this
  cases h2 : b.cells[y]? with
  | none => rw [h2] at this; simp at this
  | some row2 =>
    rw [h2] at this
    simp only [Option.map_some', Option.some_inj] at this
    have hmem : row2 ∈ b.cells := by
      rw [List.mem_iff_getElem?]
      exact ⟨y, h2⟩
    rw [hsize, this, hr.2 _ hmem]

theorem gget_none_of_ge {b : ChessBoard} (hr : Rect b) {g : List (List Cell)}
    (hsh : sameShape g b.cells) {x y : Nat}
    (h : b.board_size ≤ x ∨ b.board_size ≤ y) : gget g x y = none := by
  have hrect2 : Rect { board_size := b.board_size, cells := g, placed_pieces := [] } :=
    rect_of_shape hr rfl hsh
  exact cellAt_none_of_ge hrect2 h

theorem sameShape_placeBoard (b : ChessBoard) (p : ChessFigure) :
    sameShape (placeBoard b p).cells b.cells := by
  unfold placeBoard
  refine sameShape_trans (sameShape_update _) ?_
  exact sameShape_setAt _ _ _ fun row => setAt_length row _ _

theorem placeBoard_board_size (b : ChessBoard) (p : ChessFigure) :
    (placeBoard b p).board_size = b.board_size := rfl

theorem placeBoard_placed (b : ChessBoard) (p : ChessFigure) :
    (placeBoard b p).placed_pieces = b.placed_pieces ++ [p] := rfl

theorem rect_placeBoard {b : ChessBoard} (hr : Rect b) (p : ChessFigure) :
    Rect (placeBoard b p) :=
  rect_of_shape hr (placeBoard_board_size b p) (sameShape_placeBoard b p)

theorem cellAt_placeBoard {b : ChessBoard} {p : ChessFigure}
    (hx0 : 0 ≤ p.pos_x) (hy0 : 0 ≤ p.pos_y) (x y : Nat)
    (hx : x < b.board_size) (hy : y < b.board_size) :
    cellAt (placeBoard b p) x y = (cellAt b x y).map fun c =>
      { c with
        piece := if p.pos_x.toNat = x ∧ p.pos_y.toNat = y then some p else c.piece
        threatened := decide (∃ q ∈ b.placed_pieces ++ [p], threatens q (x : Int) (y : Int)) } := by
  unfold placeBoard
  rw [cellAt_update ({ b with
    cells := setAt b.cells p.pos_y.toNat fun r => setAt r p.pos_x.toNat fun c =>
      { c with piece := some p }
    placed_pieces := b.placed_pieces ++ [p] }) x y hx hy]
  rw [cellAt_eq_gget]
  show ((gget (setAt b.cells p.pos_y.toNat fun r => setAt r p.pos_x.toNat fun c =>
    { c with piece := some p }) x y).map _) = _
  rw [gget_setCell, ← cellAt_eq_gget, Option.map_map]
  cases hc : cellAt b x y with
  | none => rfl
  | some c =>
    simp only [Option.map_some', Option.some_inj, Function.comp]
    by_cases hcond : p.pos_x.toNat = x ∧ p.pos_y.toNat = y
    · rw [if_pos hcond, if_pos hcond]
    · rw [if_neg hcond, if_neg hcond]

theorem WF_placeBoard {b : ChessBoard} (hWF : WF b) {p : ChessFigure}
    (hs : is_position_safe b p = some true) : WF (placeBoard b p) := by
  obtain ⟨⟨hx0, hx1, hy0, hy1⟩, ⟨ce, hce, hcenone⟩, hnth⟩ :=
    (is_position_safe_true_iff hWF.rect p).mp hs
  have hpx : p.pos_x.toNat < b.board_size := by omega
  have hpy : p.pos_y.toNat < b.board_size := by omega
  have hrect2 : Rect (placeBoard b p) := rect_placeBoard hWF.rect p
  have hnotmem : p ∉ b.placed_pieces := safe_not_mem hWF hs
  refine ⟨hrect2, ?_, ?_, ?_, ?_, ?_⟩
  · -- occupancy is sound
    intro x y c hc q hq
    have hlt := cellAt_lt hrect2 hc
    rw [placeBoard_board_size] at hlt
    rw [cellAt_placeBoard hx0 hy0 x y hlt.1 hlt.2] at hc
    cases hc0 : cellAt b x y with
    | none => rw [hc0] at hc; exact Option.noConfusion hc
    | some c0 =>
      rw [hc0] at hc
      injection hc with hc
      subst hc
      simp only at hq
      by_cases hcond : p.pos_x.toNat = x ∧ p.pos_y.toNat = y
      · rw [if_pos hcond] at hq
        injection hq with hq
        subst hq
        rw [placeBoard_placed]
        refine ⟨by omega, by omega, ?_⟩
        simp
      · rw [if_neg hcond] at hq
        obtain ⟨h1, h2, h3⟩ := hWF.occ x y c0 hc0 q hq
        rw [placeBoard_placed]
        exact ⟨h1, h2, List.mem_append_left _ h3⟩
  · -- placed pieces in bounds
    intro q hq
    rw [placeBoard_placed] at hq
    rw [placeBoard_board_size]
    rcases List.mem_append.mp hq with h | h
    · exact hWF.placed_in q h
    · rw [List.mem_singleton] at h
      subst h
      exact ⟨hx0, hx1, hy0, hy1⟩
  · -- every placed piece sits in its own cell
    intro q hq
    rw [placeBoard_placed] at hq
    rcases List.mem_append.mp hq with h | h
    · obtain ⟨hqx0, hqx1, hqy0, hqy1⟩ := hWF.placed_in q h
      obtain ⟨c0, hc0, hc0q⟩ := hWF.placed_cell q h
      rw [cellAt_placeBoard hx0 hy0 _ _ (by omega) (by omega), hc0]
      refine ⟨_, rfl, ?_⟩
      simp only
      have hcond : ¬ (p.pos_x.toNat = q.pos_x.toNat ∧ p.pos_y.toNat = q.pos_y.toNat) := by
        rintro ⟨h1, h2⟩
        have hxeq : p.pos_x = q.pos_x := by omega
        have hyeq : p.pos_y = q.pos_y := by omega
        rw [hxeq, hyeq] at hce
        rw [hce] at hc0
        injection hc0 with hc0
        subst hc0
        rw [hcenone] at hc0q
        exact Option.noConfusion hc0q
      rw [if_neg hcond]
      exact hc0q
    · rw [List.mem_singleton] at h
      subst h
      rw [cellAt_placeBoard hx0 hy0 _ _ hpx hpy, hce]
      refine ⟨_, rfl, ?_⟩
      simp
  · -- nodup
    rw [placeBoard_placed]
    rw [List.nodup_append]
    refine ⟨hWF.nd, List.nodup_singleton p, ?_⟩
    intro q hq hq2
    rw [List.mem_singleton] at hq2
    subst hq2
    exact hnotmem hq
  · -- threat flags
    intro x y c hc
    have hlt := cellAt_lt hrect2 hc
    rw [placeBoard_board_size] at hlt
    rw [cellAt_placeBoard hx0 hy0 x y hlt.1 hlt.2] at hc
    cases hc0 : cellAt b x y with
    | none => rw [hc0] at hc; exact Option.noConfusion hc
    | some c0 =>
      rw [hc0] at hc
      injection hc with hc
      subst hc
      rw [placeBoard_placed]
      simp only [decide_eq_true_eq]

end Chess

namespace Chess

/-! ### Backtracking restores the board exactly -/

theorem pyModify2_eq {b : ChessBoard} (hr : Rect b) {x y : Int} (hx0 : 0 ≤ x)
    (hx1 : x < (b.board_size : Int)) (hy0 : 0 ≤ y) (hy1 : y < (b.board_size : Int))
    (f : Cell → Cell) :
    pyModify2 b.cells x y f = some (setAt b.cells y.toNat fun r => setAt r x.toNat f) := by
  unfold pyModify2
  have hylen : y < (b.cells.length : Int) := by rw [hr.1]; exact_mod_cast hy1
  rw [pyIdx_of_nonneg hy0 hylen]
  obtain ⟨row, hrow, hrowlen⟩ := rect_row hr (y := y.toNat) (by omega)
  simp only [Option.bind_eq_bind, Option.some_bind, hrow]
  have hxlen : x < (row.length : Int) := by rw [hrowlen]; exact_mod_cast hx1
  rw [pyIdx_of_nonneg hx0 hxlen]
  rfl

theorem erase_append_singleton {p : ChessFigure} {l : List ChessFigure} (h : p ∉ l) :
    (l ++ [p]).erase p = l := by
  rw [List.erase_append_right _ h, List.erase_cons_head, List.append_nil]

theorem remove_placeBoard {b : ChessBoard} (hWF : WF b) {p : ChessFigure}
    (hs : is_position_safe b p = some true) :
    remove_piece (placeBoard b p) p = some b := by
  obtain ⟨⟨hx0, hx1, hy0, hy1⟩, ⟨ce, hce, hcenone⟩, hnth⟩ :=
    (is_position_safe_true_iff hWF.rect p).mp hs
  have hpx : p.pos_x.toNat < b.board_size := by omega
  have hpy : p.pos_y.toNat < b.board_size := by omega
  have hrect2 : Rect (placeBoard b p) := rect_placeBoard hWF.rect p
  have hnotmem : p ∉ b.placed_pieces := safe_not_mem hWF hs
  -- the just-written cell holds exactly `p`
  have hcell2 : cellAt (placeBoard b p) p.pos_x.toNat p.pos_y.toNat =
      some { ce with
        piece := some p
        threatened := decide (∃ q ∈ b.placed_pieces ++ [p],
          threatens q (p.pos_x.toNat : Int) (p.pos_y.toNat : Int)) } := by
    rw [cellAt_placeBoard hx0 hy0 _ _ hpx hpy, hce]
    simp
  unfold remove_piece
  have hread : pyGet2 (placeBoard b p).cells p.pos_x p.pos_y =
      cellAt (placeBoard b p) p.pos_x.toNat p.pos_y.toNat := by
    apply pyGet2_eq_cellAt hrect2 hx0 _ hy0 _
    · rw [placeBoard_board_size]; exact hx1
    · rw [placeBoard_board_size]; exact hy1
  rw [hread, hcell2]
  simp only [Option.bind_eq_bind, Option.some_bind]
  rw [if_pos trivial]
  have hmod : pyModify2 (placeBoard b p).cells p.pos_x p.pos_y (fun c => { c with piece := none }) =
      some (setAt (placeBoard b p).cells p.pos_y.toNat fun r =>
        setAt r p.pos_x.toNat fun c => { c with piece := none }) := by
    apply pyModify2_eq hrect2 hx0 _ hy0 _
    · rw [placeBoard_board_size]; exact hx1
    · rw [placeBoard_board_size]; exact hy1
  rw [hmod]
  simp only [Option.some_bind]
  rw [if_pos (by rw [placeBoard_placed]; simp)]
  simp only [Option.pure_def, Option.some_inj]
  -- the board we produce
  rw [placeBoard_placed, erase_append_singleton hnotmem]
  -- compare boards field by field
  have hsh3 : sameShape (setAt (placeBoard b p).cells p.pos_y.toNat fun r =>
      setAt r p.pos_x.toNat fun c => { c with piece := none }) b.cells :=
    sameShape_trans (sameShape_setAt _ _ _ fun row => setAt_length row _ _)
      (sameShape_placeBoard b p)
  have hshU : sameShape (update_threatened_cells { placeBoard b p with
      cells := setAt (placeBoard b p).cells p.pos_y.toNat fun r =>
        setAt r p.pos_x.toNat fun c => { c with piece := none }
      placed_pieces := b.placed_pieces }).cells b.cells :=
    sameShape_trans (sameShape_update _) hsh3
  -- pointwise equality of the grids
  have hpoint : ∀ x y : Nat, gget (update_threatened_cells { placeBoard b p with
      cells := setAt (placeBoard b p).cells p.pos_y.toNat fun r =>
        setAt r p.pos_x.toNat fun c => { c with piece := none }
      placed_pieces := b.placed_pieces }).cells x y = gget b.cells x y := by
    intro x y
    by_cases hlt : x < b.board_size ∧ y < b.board_size
    · rw [← cellAt_eq_gget, cellAt_update ({ placeBoard b p with
        cells := setAt (placeBoard b p).cells p.pos_y.toNat fun r =>
          setAt r p.pos_x.toNat fun c => { c with piece := none }
        placed_pieces := b.placed_pieces }) x y hlt.1 hlt.2]
      rw [cellAt_eq_gget]
      show ((gget (setAt (placeBoard b p).cells p.pos_y.toNat fun r =>
        setAt r p.pos_x.toNat fun c => { c with piece := none }) x y).map _) = _
      rw [gget_setCell, ← cellAt_eq_gget, cellAt_placeBoard hx0 hy0 x y hlt.1 hlt.2]
      rw [← cellAt_eq_gget]
      cases hc0 : cellAt b x y with
      | none => rfl
      | some c0 =>
        simp only [Option.map_some', Option.some_inj]
        by_cases hcond : p.pos_x.toNat = x ∧ p.pos_y.toNat = y
        · rw [if_pos hcond]
          dsimp only
          have hxeq : x = p.pos_x.toNat := hcond.1.symm
          have hyeq : y = p.pos_y.toNat := hcond.2.symm
          subst hxeq
          subst hyeq
          rw [hce] at hc0
          injection hc0 with hc0
          subst hc0
          rw [decide_eq_of_iff ce.threatened (hWF.threat_ok _ _ _ hce), ← hcenone]
        · rw [if_neg hcond]
          dsimp only
          rw [decide_eq_of_iff c0.threatened (hWF.threat_ok _ _ _ hc0), if_neg hcond]
    · have h1 : gget (update_threatened_cells { placeBoard b p with
          cells := setAt (placeBoard b p).cells p.pos_y.toNat fun r =>
            setAt r p.pos_x.toNat fun c => { c with piece := none }
          placed_pieces := b.placed_pieces }).cells x y = none :=
        gget_none_of_ge hWF.rect hshU (by omega)
      have h2 : gget b.cells x y = none :=
        gget_none_of_ge hWF.rect (sameShape_refl _) (by omega)
      rw [h1, h2]
  -- assemble board equality
  have hcells := grid_ext hshU hpoint
  show ChessBoard.mk _ _ _ = b
  rw [ChessBoard.mk.injEq]
  exact ⟨rfl, hcells, rfl⟩

end Chess

namespace Chess

/-! ### `remove_piece` preserves the invariant -/

theorem pyGet2_some_parts {cells : List (List Cell)} {x y : Int} {c : Cell}
    (h : pyGet2 cells x y = some c) :
    ∃ ny nx row, pyIdx cells.length y = some ny ∧ cells[ny]? = some row ∧
      pyIdx row.length x = some nx ∧ row[nx]? = some c := by
  unfold pyGet2 at h
  cases hrow : pyGet cells y with
  | none => rw [hrow] at h; exact Option.noConfusion h
  | some row =>
    rw [hrow] at h
    simp only [Option.bind_eq_bind, Option.some_bind] at h
    obtain ⟨ny, h1, h2, h3⟩ := pyGet_eq_some hrow
    obtain ⟨nx, h4, h5, h6⟩ := pyGet_eq_some h
    exact ⟨ny, nx, row, h1, h3, h4, h6⟩

theorem coords_inj {b : ChessBoard} (hWF : WF b) {q1 q2 : ChessFigure}
    (h1 : q1 ∈ b.placed_pieces) (h2 : q2 ∈ b.placed_pieces)
    (hx : q1.pos_x = q2.pos_x) (hy : q1.pos_y = q2.pos_y) : q1 = q2 := by
  obtain ⟨c1, hc1, hp1⟩ := hWF.placed_cell q1 h1
  obtain ⟨c2, hc2, hp2⟩ := hWF.placed_cell q2 h2
  rw [hx, hy] at hc1
  rw [hc1] at hc2
  injection hc2 with hc2
  subst hc2
  rw [hp1] at hp2
  injection hp2

/-- Every successful `remove_piece` hands back a well-formed board (either a
no-op, or the removal of a genuinely placed piece followed by the threat
recomputation). -/
theorem WF_remove {b b3 : ChessBoard} (hWF : WF b) {p : ChessFigure}
    (h : remove_piece b p = some b3) : WF b3 := by
  unfold remove_piece at h
  cases hread : pyGet2 b.cells p.pos_x p.pos_y with
  | none => rw [hread] at h; exact Option.noConfusion h
  | some cell =>
    rw [hread] at h
    simp only [Option.bind_eq_bind, Option.some_bind] at h
    by_cases hocc : cell.piece = some p
    · rw [if_pos hocc] at h
      -- the piece really is on the board, at nonnegative coordinates
      obtain ⟨ny, nx, row, hpy, hrow, hpx, hcel⟩ := pyGet2_some_parts hread
      have hcell : cellAt b nx ny = some cell := by
        unfold cellAt
        rw [hrow]
        simpa using hcel
      obtain ⟨hqx, hqy, hqmem⟩ := hWF.occ nx ny cell hcell p hocc
      have hnx := pyIdx_isSome hpx
      have hny := pyIdx_isSome hpy
      have hxnn : 0 ≤ p.pos_x ∧ nx = p.pos_x.toNat := by
        unfold pyIdx at hpx
        split at hpx
        · injection hpx with hpx; omega
        · split at hpx
          · injection hpx with hpx
            rename_i h1 h2
            have hlen : row.length = b.board_size := by
              apply hWF.rect.2
              rw [List.mem_iff_getElem?]
              exact ⟨ny, hrow⟩
            rw [hlen] at hpx h1 h2
            have hlt := cellAt_lt hWF.rect hcell
            omega
          · exact Option.noConfusion hpx
      have hynn : 0 ≤ p.pos_y ∧ ny = p.pos_y.toNat := by
        unfold pyIdx at hpy
        split at hpy
        · injection hpy with hpy
          omega
        · split at hpy
          · injection hpy with hpy
            rename_i h1 h2
            rw [hWF.rect.1] at hpy h1 h2
            have hlt := cellAt_lt hWF.rect hcell
            omega
          · exact Option.noConfusion hpy
      have hlt := cellAt_lt hWF.rect hcell
      have hx1 : p.pos_x < (b.board_size : Int) := by omega
      have hy1 : p.pos_y < (b.board_size : Int) := by omega
      rw [pyModify2_eq hWF.rect hxnn.1 hx1 hynn.1 hy1] at h
      simp only [Option.some_bind, if_pos hqmem, Option.pure_def, Option.some_inj] at h
      subst h
      -- now prove WF of the updated board
      have hsh3 : sameShape (setAt b.cells p.pos_y.toNat fun r =>
          setAt r p.pos_x.toNat fun c => { c with piece := none }) b.cells :=
        sameShape_setAt _ _ _ fun r2 => setAt_length r2 _ _
      have hshU : sameShape (update_threatened_cells { b with
          cells := setAt b.cells p.pos_y.toNat fun r =>
            setAt r p.pos_x.toNat fun c => { c with piece := none }
          placed_pieces := b.placed_pieces.erase p }).cells b.cells :=
        sameShape_trans (sameShape_update _) hsh3
      have hrect3 : Rect (update_threatened_cells { b with
          cells := setAt b.cells p.pos_y.toNat fun r =>
            setAt r p.pos_x.toNat fun c => { c with piece := none }
          placed_pieces := b.placed_pieces.erase p }) :=
        rect_of_shape hWF.rect rfl hshU
      have hcellchar : ∀ x y : Nat, x < b.board_size → y < b.board_size →
          cellAt (update_threatened_cells { b with
            cells := setAt b.cells p.pos_y.toNat fun r =>
              setAt r p.pos_x.toNat fun c => { c with piece := none }
            placed_pieces := b.placed_pieces.erase p }) x y =
          (cellAt b x y).map fun c =>
            { c with
              piece := if p.pos_x.toNat = x ∧ p.pos_y.toNat = y then none else c.piece
              threatened := decide (∃ q ∈ b.placed_pieces.erase p,
                threatens q (x : Int) (y : Int)) } := by
        intro x y hx hy
        rw [cellAt_update ({ b with
          cells := setAt b.cells p.pos_y.toNat fun r =>
            setAt r p.pos_x.toNat fun c => { c with piece := none }
          placed_pieces := b.placed_pieces.erase p }) x y hx hy]
        rw [cellAt_eq_gget]
        show ((gget (setAt b.cells p.pos_y.toNat fun r =>
          setAt r p.pos_x.toNat fun c => { c with piece := none }) x y).map _) = _
        rw [gget_setCell, ← cellAt_eq_gget, Option.map_map]
        cases hc0 : cellAt b x y with
        | none => rfl
        | some c0 =>
          simp only [Option.map_some', Option.some_inj, Function.comp]
          by_cases hcond : p.pos_x.toNat = x ∧ p.pos_y.toNat = y
          · rw [if_pos hcond, if_pos hcond]
          · rw [if_neg hcond, if_neg hcond]
      refine ⟨hrect3, ?_, ?_, ?_, ?_, ?_⟩
      · -- occupancy sound
        intro x y c hc q hq
        have hlt2 := cellAt_lt hrect3 hc
        rw [hcellchar x y hlt2.1 hlt2.2] at hc
        cases hc0 : cellAt b x y with
        | none => rw [hc0] at hc; exact Option.noConfusion hc
        | some c0 =>
          rw [hc0] at hc
          injection hc with hc
          subst hc
          simp only at hq
          by_cases hcond : p.pos_x.toNat = x ∧ p.pos_y.toNat = y
          · rw [if_pos hcond] at hq
            exact Option.noConfusion hq
          · rw [if_neg hcond] at hq
            obtain ⟨h1, h2, h3⟩ := hWF.occ x y c0 hc0 q hq
            refine ⟨h1, h2, ?_⟩
            show q ∈ b.placed_pieces.erase p
            rw [hWF.nd.mem_erase_iff]
            refine ⟨?_, h3⟩
            rintro rfl
            exact hcond ⟨by omega, by omega⟩
      · -- placed in bounds
        intro q hq
        rw [show (update_threatened_cells { b with
            cells := setAt b.cells p.pos_y.toNat fun r =>
              setAt r p.pos_x.toNat fun c => { c with piece := none }
            placed_pieces := b.placed_pieces.erase p }).placed_pieces =
          b.placed_pieces.erase p from rfl, hWF.nd.mem_erase_iff] at hq
        exact hWF.placed_in q hq.2
      · -- placed pieces sit in their cells
        intro q hq
        rw [show (update_threatened_cells { b with
            cells := setAt b.cells p.pos_y.toNat fun r =>
              setAt r p.pos_x.toNat fun c => { c with piece := none }
            placed_pieces := b.placed_pieces.erase p }).placed_pieces =
          b.placed_pieces.erase p from rfl, hWF.nd.mem_erase_iff] at hq
        obtain ⟨hqne, hqmem2⟩ := hq
        obtain ⟨hqx0, hqx1, hqy0, hqy1⟩ := hWF.placed_in q hqmem2
        obtain ⟨c0, hc0, hc0q⟩ := hWF.placed_cell q hqmem2
        rw [hcellchar _ _ (by omega) (by omega), hc0]
        refine ⟨_, rfl, ?_⟩
        simp only
        have hcond : ¬ (p.pos_x.toNat = q.pos_x.toNat ∧ p.pos_y.toNat = q.pos_y.toNat) := by
          rintro ⟨h1, h2⟩
          exact hqne (coords_inj hWF hqmem2 hqmem (by omega) (by omega))
        rw [if_neg hcond]
        exact hc0q
      · -- nodup
        show (b.placed_pieces.erase p).Nodup
        exact hWF.nd.erase p
      · -- threat flags
        intro x y c hc
        have hlt2 := cellAt_lt hrect3 hc
        rw [hcellchar x y hlt2.1 hlt2.2] at hc
        cases hc0 : cellAt b x y with
        | none => rw [hc0] at hc; exact Option.noConfusion hc
        | some c0 =>
          rw [hc0] at hc
          injection hc with hc
          subst hc
          show decide (∃ q ∈ b.placed_pieces.erase p, threatens q (x : Int) (y : Int)) = true ↔ _
          simp only [decide_eq_true_eq]
          rfl
    · rw [if_neg hocc] at h
      simp only [Option.pure_def, Option.some_inj] at h
      subst h
      exact hWF

end Chess

namespace Chess

/-! ### The freshly constructed board is well-formed -/

theorem cellAt_init (n : Nat) (x y : Nat) :
    cellAt (ChessBoard.init n) x y =
      if x < n ∧ y < n then
        some { x := (x : Int), y := (y : Int), piece := none, threatened := false }
      else none := by
  unfold cellAt ChessBoard.init
  by_cases hy : y < n <;> by_cases hx : x < n <;>
    simp [List.getElem?_map, List.getElem?_range, hx, hy] <;>
    first
      | omega
      | (intro a ha
         rw [List.getElem?_eq_none (by simpa using Nat.le_of_not_lt hy)] at ha
         exact Option.noConfusion ha)

theorem WF_init (n : Nat) : WF (ChessBoard.init n) := by
  refine ⟨⟨by simp [ChessBoard.init], ?_⟩, ?_, ?_, ?_, ?_, ?_⟩
  · intro row hrow
    unfold ChessBoard.init at hrow
    simp only [List.mem_map, List.mem_range] at hrow
    obtain ⟨y, -, rfl⟩ := hrow
    simp [ChessBoard.init]
  · intro x y c hc q hq
    rw [cellAt_init] at hc
    split at hc
    · injection hc with hc
      subst hc
      exact Option.noConfusion hq
    · exact Option.noConfusion hc
  · intro q hq
    exact absurd hq (by simp [ChessBoard.init])
  · intro q hq
    exact absurd hq (by simp [ChessBoard.init])
  · exact List.nodup_nil
  · intro x y c hc
    rw [cellAt_init] at hc
    split at hc
    · injection hc with hc
      subst hc
      simp [ChessBoard.init]
    · exact Option.noConfusion hc

/-! ### Reachability: the solutions the search is specified to record -/

/-- The coordinate sets reachable from a board by adding `l` pieces one at a
time, each addition passing the safety predicate (this is the spec's
description of what the search must enumerate). -/
inductive Reachable : ChessBoard → Nat → Finset (Int × Int) → Prop where
  | done (b : ChessBoard) : Reachable b 0 (coordSet b.placed_pieces)
  | step (b : ChessBoard) (l : Nat) (p : ChessFigure) (b2 : ChessBoard)
      (s : Finset (Int × Int))
      (hsafe : is_position_safe b p = some true)
      (hplace : place_piece b p = some (true, b2))
      (htail : Reachable b2 l s) : Reachable b (l + 1) s

theorem reachable_zero_iff (b : ChessBoard) (s : Finset (Int × Int)) :
    Reachable b 0 s ↔ s = coordSet b.placed_pieces := by
  constructor
  · intro h
    cases h
    rfl
  · rintro rfl
    exact .done b

theorem reachable_succ_iff (b : ChessBoard) (l : Nat) (s : Finset (Int × Int)) :
    Reachable b (l + 1) s ↔ ∃ p b2, is_position_safe b p = some true ∧
      place_piece b p = some (true, b2) ∧ Reachable b2 l s := by
  constructor
  · intro h
    cases h with
    | step b l p b2 s hsafe hplace htail => exact ⟨p, b2, hsafe, hplace, htail⟩
  · rintro ⟨p, b2, hsafe, hplace, htail⟩
    exact .step b l p b2 s hsafe hplace htail

theorem mem_solveCoords {n : Nat} {c : Int × Int} :
    c ∈ solveCoords n ↔ 0 ≤ c.1 ∧ c.1 < (n : Int) ∧ 0 ≤ c.2 ∧ c.2 < (n : Int) := by
  obtain ⟨c1, c2⟩ := c
  unfold solveCoords
  rw [List.mem_flatMap]
  constructor
  · rintro ⟨y, hy, hc⟩
    rw [List.mem_range] at hy
    rw [List.mem_map] at hc
    obtain ⟨x, hx, heq⟩ := hc
    rw [List.mem_range] at hx
    rw [Prod.mk.injEq] at heq
    obtain ⟨h1, h2⟩ := heq
    rw [Int.ofNat_eq_coe] at h1 h2
    dsimp only
    omega
  · rintro ⟨h1, h2, h3, h4⟩
    dsimp only at h1 h2 h3 h4
    refine ⟨c2.toNat, ?_, ?_⟩
    · rw [List.mem_range]
      omega
    · rw [List.mem_map]
      refine ⟨c1.toNat, by rw [List.mem_range]; omega, ?_⟩
      rw [Prod.mk.injEq, Int.ofNat_eq_coe, Int.ofNat_eq_coe]
      constructor <;> omega

end Chess

namespace Chess

/-! ### Characterisation of the backtracking search -/

theorem solveLoop_nil (f : ChessBoard → Finset (Finset (Int × Int)) →
    Option (Finset (Finset (Int × Int)) × ChessBoard))
    (found : Finset (Finset (Int × Int))) (b : ChessBoard) :
    solveLoop f [] found b = some (found, b) := rfl

theorem solveLoop_cons_true {f : ChessBoard → Finset (Finset (Int × Int)) →
    Option (Finset (Finset (Int × Int)) × ChessBoard)}
    {cs : List (Int × Int)} {found : Finset (Finset (Int × Int))} {b b2 : ChessBoard}
    {c : Int × Int} (h : place_piece b { pos_x := c.1, pos_y := c.2 } = some (true, b2)) :
    solveLoop f (c :: cs) found b = (f b2 found).bind fun fr =>
      (remove_piece fr.2 { pos_x := c.1, pos_y := c.2 }).bind fun b3 =>
        solveLoop f cs fr.1 b3 := by
  simp only [solveLoop]
  rw [h]
  rfl

theorem solveLoop_cons_false {f : ChessBoard → Finset (Finset (Int × Int)) →
    Option (Finset (Finset (Int × Int)) × ChessBoard)}
    {cs : List (Int × Int)} {found : Finset (Finset (Int × Int))} {b b2 : ChessBoard}
    {c : Int × Int} (h : place_piece b { pos_x := c.1, pos_y := c.2 } = some (false, b2)) :
    solveLoop f (c :: cs) found b = solveLoop f cs found b2 := by
  simp only [solveLoop]
  rw [h]
  rfl

theorem solveLoop_spec (rest : List Char)
    (ih : ∀ (b : ChessBoard) (found : Finset (Finset (Int × Int))), WF b →
      ∃ found2, recursive_solver rest b found = some (found2, b) ∧
        ∀ s, s ∈ found2 ↔ s ∈ found ∨ Reachable b rest.length s) :
    ∀ (cs : List (Int × Int)) (b : ChessBoard) (found : Finset (Finset (Int × Int))), WF b →
      (∀ c ∈ cs, 0 ≤ c.1 ∧ c.1 < (b.board_size : Int) ∧
        0 ≤ c.2 ∧ c.2 < (b.board_size : Int)) →
      ∃ found2, solveLoop (fun b2 f2 => recursive_solver rest b2 f2) cs found b =
          some (found2, b) ∧
        ∀ s, s ∈ found2 ↔ s ∈ found ∨ ∃ c ∈ cs, ∃ b2,
          place_piece b { pos_x := c.1, pos_y := c.2 } = some (true, b2) ∧
            Reachable b2 rest.length s := by
  intro cs
  induction cs with
  | nil =>
    intro b found hWF hin
    exact ⟨found, solveLoop_nil _ _ _, by simp⟩
  | cons c cs ihc =>
    intro b found hWF hin
    have hcb := hin c (List.mem_cons_self c cs)
    have hintail : ∀ e ∈ cs, 0 ≤ e.1 ∧ e.1 < (b.board_size : Int) ∧
        0 ≤ e.2 ∧ e.2 < (b.board_size : Int) :=
      fun e he => hin e (List.mem_cons_of_mem c he)
    obtain ⟨s0, hs0⟩ := is_position_safe_isSome hWF.rect { pos_x := c.1, pos_y := c.2 }
    cases s0 with
    | true =>
      have hplace := place_piece_of_safe hWF.rect hs0
      have hWF2 := WF_placeBoard hWF hs0
      obtain ⟨f1, hrec, hmem1⟩ := ih (placeBoard b { pos_x := c.1, pos_y := c.2 }) found hWF2
      have hrem := remove_placeBoard hWF hs0
      obtain ⟨found2, hloop, hmem2⟩ := ihc b f1 hWF hintail
      refine ⟨found2, ?_, ?_⟩
      · rw [solveLoop_cons_true hplace, hrec]
        simp only [Option.some_bind]
        rw [hrem]
        simp only [Option.some_bind]
        exact hloop
      · intro s
        rw [hmem2 s, hmem1 s]
        constructor
        · rintro ((h | h) | ⟨e, he, b2, hpl, hre⟩)
          · exact Or.inl h
          · exact Or.inr ⟨c, List.mem_cons_self c cs,
              placeBoard b { pos_x := c.1, pos_y := c.2 }, hplace, h⟩
          · exact Or.inr ⟨e, List.mem_cons_of_mem c he, b2, hpl, hre⟩
        · rintro (h | ⟨e, he, b2, hpl, hre⟩)
          · exact Or.inl (Or.inl h)
          · rcases List.mem_cons.mp he with rfl | he2
            · rw [hplace] at hpl
              injection hpl with hpl
              have hb2 : b2 = placeBoard b { pos_x := e.1, pos_y := e.2 } :=
                ((Prod.mk.injEq _ _ _ _).mp hpl).2.symm
              subst hb2
              exact Or.inl (Or.inr hre)
            · exact Or.inr ⟨e, he2, b2, hpl, hre⟩
    | false =>
      have hplace := place_piece_of_failed_check hWF.rect
        ⟨show -(b.board_size : Int) ≤ c.1 by omega, hcb.2.1⟩
        ⟨show -(b.board_size : Int) ≤ c.2 by omega, hcb.2.2.2⟩ hs0
      obtain ⟨found2, hloop, hmem2⟩ := ihc b found hWF hintail
      refine ⟨found2, ?_, ?_⟩
      · rw [solveLoop_cons_false hplace]
        exact hloop
      · intro s
        rw [hmem2 s]
        constructor
        · rintro (h | ⟨e, he, b2, hpl, hre⟩)
          · exact Or.inl h
          · exact Or.inr ⟨e, List.mem_cons_of_mem c he, b2, hpl, hre⟩
        · rintro (h | ⟨e, he, b2, hpl, hre⟩)
          · exact Or.inl h
          · rcases List.mem_cons.mp he with rfl | he2
            · rw [hplace] at hpl
              injection hpl with hpl
              exact absurd ((Prod.mk.injEq _ _ _ _).mp hpl).1 (by simp)
            · exact Or.inr ⟨e, he2, b2, hpl, hre⟩

theorem recursive_solver_spec : ∀ (rem : List Char) (b : ChessBoard)
    (found : Finset (Finset (Int × Int))), WF b →
    ∃ found2, recursive_solver rem b found = some (found2, b) ∧
      ∀ s, s ∈ found2 ↔ s ∈ found ∨ Reachable b rem.length s := by
  intro rem
  induction rem with
  | nil =>
    intro b found hWF
    refine ⟨insert (coordSet b.placed_pieces) found, rfl, fun s => ?_⟩
    rw [Finset.mem_insert, List.length_nil, reachable_zero_iff]
    tauto
  | cons ch rest ih =>
    intro b found hWF
    obtain ⟨found2, hloop, hmem⟩ := solveLoop_spec rest ih (solveCoords b.board_size)
      b found hWF (fun c hc => mem_solveCoords.mp hc)
    refine ⟨found2, hloop, fun s => ?_⟩
    rw [hmem s, List.length_cons]
    constructor
    · rintro (h | ⟨c, hc, b2, hpl, hre⟩)
      · exact Or.inl h
      · refine Or.inr ?_
        rw [reachable_succ_iff]
        refine ⟨{ pos_x := c.1, pos_y := c.2 }, b2, ?_, hpl, hre⟩
        exact ((place_piece_true_iff hWF.rect _).mp hpl).1
    · rintro (h | h)
      · exact Or.inl h
      · rw [reachable_succ_iff] at h
        obtain ⟨p, b2, hsafe, hpl, hre⟩ := h
        refine Or.inr ⟨(p.pos_x, p.pos_y), ?_, b2, ?_, hre⟩
        · rw [mem_solveCoords]
          obtain ⟨hb, -, -⟩ := (is_position_safe_true_iff hWF.rect p).mp hsafe
          exact hb
        · have : ({ pos_x := (p.pos_x, p.pos_y).1, pos_y := (p.pos_x, p.pos_y).2 } :
              ChessFigure) = p := rfl
          rw [this]
          exact hpl

end Chess

namespace Chess

theorem find_solutions_spec : ∀ (arrs : List (List Char)) (b : ChessBoard)
    (found : Finset (Finset (Int × Int))), WF b →
    ∃ found2, find_solutions b arrs found = some (found2, b) ∧
      ∀ s, s ∈ found2 ↔ s ∈ found ∨ ∃ arr ∈ arrs, Reachable b arr.length s := by
  intro arrs
  induction arrs with
  | nil =>
    intro b found hWF
    exact ⟨found, rfl, by simp⟩
  | cons arr arrs ih =>
    intro b found hWF
    obtain ⟨f1, hrec, hmem1⟩ := recursive_solver_spec arr b found hWF
    obtain ⟨found2, hfold, hmem2⟩ := ih b f1 hWF
    refine ⟨found2, ?_, ?_⟩
    · unfold find_solutions at hfold ⊢
      rw [List.foldlM_cons, hrec]
      simpa using hfold
    · intro s
      rw [hmem2 s, hmem1 s]
      constructor
      · rintro ((h | h) | ⟨a, ha, hre⟩)
        · exact Or.inl h
        · exact Or.inr ⟨arr, List.mem_cons_self arr arrs, h⟩
        · exact Or.inr ⟨a, List.mem_cons_of_mem arr ha, hre⟩
      · rintro (h | ⟨a, ha, hre⟩)
        · exact Or.inl (Or.inl h)
        · rcases List.mem_cons.mp ha with rfl | ha2
          · exact Or.inl (Or.inr hre)
          · exact Or.inr ⟨a, ha2, hre⟩

/-! ### Sizes of recorded solutions -/

theorem coordSet_card {b : ChessBoard} (hWF : WF b) :
    (coordSet b.placed_pieces).card = b.placed_pieces.length := by
  unfold coordSet
  rw [List.toFinset_card_of_nodup, List.length_map]
  exact hWF.nd.map_on fun q1 h1 q2 h2 heq => by
    rw [Prod.mk.injEq] at heq
    exact coords_inj hWF h1 h2 heq.1 heq.2

theorem Reachable_card {b : ChessBoard} {l : Nat} {s : Finset (Int × Int)}
    (h : Reachable b l s) : WF b → s.card = l + b.placed_pieces.length := by
  induction h with
  | done b =>
    intro hWF
    simpa using coordSet_card hWF
  | step b l p b2 s hsafe hplace htail ihh =>
    intro hWF
    have hb2 : b2 = placeBoard b p := ((place_piece_true_iff hWF.rect p).mp hplace).2
    subst hb2
    rw [ihh (WF_placeBoard hWF hsafe), placeBoard_placed, List.length_append]
    simp only [List.length_singleton]
    omega

/-! ### Symmetry of the threat pattern -/

theorem possible_moves_neg_mem {p q : ChessFigure} {d : Int × Int}
    (hd : d ∈ p.possible_moves) : (-d.1, -d.2) ∈ q.possible_moves := by
  unfold ChessFigure.possible_moves at hd ⊢
  fin_cases hd <;> simp

theorem threatens_symm {a : ChessFigure} {x y : Int} (h : threatens a x y) :
    threatens { pos_x := x, pos_y := y } a.pos_x a.pos_y := by
  obtain ⟨d, hd, h1, h2⟩ := h
  refine ⟨(-d.1, -d.2), possible_moves_neg_mem hd, ?_, ?_⟩ <;> dsimp only <;> omega

end Chess

namespace Chess

/-! ### The dialog-level pre-placement check -/

theorem check_safety_loop_cons {b : ChessBoard} {c : Int × Int} {rest : List (Int × Int)}
    (h : check_safety_loop b (c :: rest) = some true) :
    ∃ b2, place_piece b { pos_x := c.1, pos_y := c.2 } = some (true, b2) ∧
      check_safety_loop b2 rest = some true := by
  unfold check_safety_loop at h
  cases hp : place_piece b { pos_x := c.1, pos_y := c.2 } with
  | none =>
    rw [hp] at h
    exact Option.noConfusion h
  | some r =>
    rw [hp] at h
    simp only [Option.bind_eq_bind, Option.some_bind] at h
    obtain ⟨r1, r2⟩ := r
    cases r1 with
    | false => simp at h
    | true =>
      refine ⟨r2, rfl, ?_⟩
      simpa using h

theorem check_safety_loop_pairwise : ∀ (cs : List (Int × Int)) (b : ChessBoard), WF b →
    check_safety_loop b cs = some true →
    (∀ c ∈ cs, ∀ q ∈ b.placed_pieces,
      ¬ ((q.pos_x, q.pos_y) = c ∨ threatens q c.1 c.2)) ∧
    List.Pairwise (fun a c => ¬ (a = c ∨
      threatens { pos_x := a.1, pos_y := a.2 } c.1 c.2)) cs := by
  intro cs
  induction cs with
  | nil =>
    intro b hWF h
    exact ⟨by simp, List.Pairwise.nil⟩
  | cons c rest ih =>
    intro b hWF h
    obtain ⟨b2, hpl, hrest⟩ := check_safety_loop_cons h
    obtain ⟨hsafe, hb2⟩ := (place_piece_true_iff hWF.rect _).mp hpl
    subst hb2
    have hWF2 : WF (placeBoard b { pos_x := c.1, pos_y := c.2 }) := WF_placeBoard hWF hsafe
    obtain ⟨hfor2, hpair2⟩ := ih _ hWF2 hrest
    obtain ⟨hbounds, ⟨ce, hce, hcenone⟩, hnth⟩ := (is_position_safe_true_iff hWF.rect _).mp hsafe
    constructor
    · intro e he q hq
      rcases List.mem_cons.mp he with rfl | he2
      · rintro (heq | hth)
        · -- the cell at `e` is empty, yet `q` would occupy it
          obtain ⟨c2, hc2, hc2q⟩ := hWF.placed_cell q hq
          rw [Prod.mk.injEq] at heq
          obtain ⟨hqx, hqy⟩ := heq
          dsimp only at hce
          rw [hqx, hqy] at hc2
          rw [hce] at hc2
          injection hc2 with hc2
          subst hc2
          rw [hcenone] at hc2q
          exact Option.noConfusion hc2q
        · exact hnth q hq hth
      · have hq2 : q ∈ (placeBoard b { pos_x := c.1, pos_y := c.2 }).placed_pieces := by
          rw [placeBoard_placed]
          exact List.mem_append_left _ hq
        exact hfor2 e he2 q hq2
    · refine List.Pairwise.cons ?_ hpair2
      intro e he
      have hmem : ({ pos_x := c.1, pos_y := c.2 } : ChessFigure) ∈
          (placeBoard b { pos_x := c.1, pos_y := c.2 }).placed_pieces := by
        rw [placeBoard_placed]
        simp
      have := hfor2 e he { pos_x := c.1, pos_y := c.2 } hmem
      rintro (heq | hth)
      · exact this (Or.inl (by rw [← heq]))
      · exact this (Or.inr hth)

theorem check_safety_loop_isSome : ∀ (cs : List (Int × Int)) (b : ChessBoard), WF b →
    (∀ c ∈ cs, 0 ≤ c.1 ∧ c.1 < (b.board_size : Int) ∧
      0 ≤ c.2 ∧ c.2 < (b.board_size : Int)) →
    ∃ v, check_safety_loop b cs = some v := by
  intro cs
  induction cs with
  | nil => exact fun b _ _ => ⟨true, rfl⟩
  | cons c rest ih =>
    intro b hWF hin
    have hcb := hin c (List.mem_cons_self c rest)
    obtain ⟨s0, hs0⟩ := is_position_safe_isSome hWF.rect { pos_x := c.1, pos_y := c.2 }
    cases s0 with
    | true =>
      have hpl := place_piece_of_safe hWF.rect hs0
      have hWF2 := WF_placeBoard hWF hs0
      obtain ⟨v, hv⟩ := ih (placeBoard b { pos_x := c.1, pos_y := c.2 }) hWF2
        (fun e he => by rw [placeBoard_board_size]; exact hin e (List.mem_cons_of_mem c he))
      refine ⟨v, ?_⟩
      unfold check_safety_loop
      rw [hpl]
      simpa using hv
    | false =>
      have hpl := place_piece_of_failed_check hWF.rect
        ⟨show -(b.board_size : Int) ≤ c.1 by omega, hcb.2.1⟩
        ⟨show -(b.board_size : Int) ≤ c.2 by omega, hcb.2.2.2⟩ hs0
      refine ⟨false, ?_⟩
      unfold check_safety_loop
      rw [hpl]
      rfl

/-! ### Kernel-computable equality bridges for concrete runs -/

/-- Boolean test that a solver result is `some (found, b)`. -/
def resEqB (r : Option (Finset (Finset (Int × Int)) × ChessBoard))
    (found : Finset (Finset (Int × Int))) (b : ChessBoard) : Bool :=
  match r with
  | some (f, b2) =>
      decide (∀ s ∈ f, s ∈ found) && decide (∀ s ∈ found, s ∈ f) && decide (b2 = b)
  | none => false

theorem resEqB_iff (r : Option (Finset (Finset (Int × Int)) × ChessBoard))
    (found : Finset (Finset (Int × Int))) (b : ChessBoard) :
    resEqB r found b = true ↔ r = some (found, b) := by
  cases r with
  | none => simp [resEqB]
  | some p =>
    obtain ⟨f, b2⟩ := p
    simp only [resEqB, Bool.and_eq_true, decide_eq_true_eq, Option.some_inj, Prod.mk.injEq]
    constructor
    · rintro ⟨⟨h1, h2⟩, h3⟩
      exact ⟨Finset.Subset.antisymm (fun s hs => h1 s hs) (fun s hs => h2 s hs), h3⟩
    · rintro ⟨rfl, rfl⟩
      exact ⟨⟨fun s hs => hs, fun s hs => hs⟩, rfl⟩

/-- Boolean test: `create_board` then `find_solutions` from an empty collector
yields exactly `expected` and hands the board back unchanged. -/
def scenarioB (n l : Nat) (k : Int) (coords : List (Int × Int))
    (expected : Finset (Finset (Int × Int))) : Bool :=
  match create_board n l k coords with
  | some (b, arrs) => resEqB (find_solutions b arrs ∅) expected b
  | none => false

theorem scenarioB_iff (n l : Nat) (k : Int) (coords : List (Int × Int))
    (expected : Finset (Finset (Int × Int))) :
    scenarioB n l k coords expected = true ↔
      ∃ b arrs, create_board n l k coords = some (b, arrs) ∧
        find_solutions b arrs ∅ = some (expected, b) := by
  unfold scenarioB
  cases h : create_board n l k coords with
  | none => simp
  | some p =>
    obtain ⟨b, arrs⟩ := p
    rw [resEqB_iff]
    constructor
    · intro h2
      exact ⟨b, arrs, rfl, h2⟩
    · rintro ⟨b2, arrs2, heq, h2⟩
      obtain ⟨rfl, rfl⟩ : b = b2 ∧ arrs = arrs2 := by
        have := heq
        simp only [Option.some_inj, Prod.mk.injEq] at this
        exact this
      exact h2

end Chess

namespace Chess

theorem is_position_safe_oob {b : ChessBoard} {p : ChessFigure}
    (h : ¬ (0 ≤ p.pos_x ∧ p.pos_x < (b.board_size : Int) ∧
            0 ≤ p.pos_y ∧ p.pos_y < (b.board_size : Int))) :
    is_position_safe b p = some false := by
  unfold is_position_safe
  rw [if_pos h]

theorem seedLoop_total : ∀ (coords : List (Int × Int)) (b : ChessBoard), WF b →
    (∀ c ∈ coords, 0 ≤ c.1 ∧ c.1 < (b.board_size : Int) ∧
      0 ≤ c.2 ∧ c.2 < (b.board_size : Int)) →
    ∃ b2, seedLoop b coords = some b2 ∧ WF b2 ∧ b2.board_size = b.board_size := by
  intro coords
  induction coords with
  | nil => exact fun b hWF _ => ⟨b, rfl, hWF, rfl⟩
  | cons c rest ih =>
    intro b hWF hin
    have hcb := hin c (List.mem_cons_self c rest)
    obtain ⟨s0, hs0⟩ := is_position_safe_isSome hWF.rect { pos_x := c.1, pos_y := c.2 }
    cases s0 with
    | true =>
      have hpl := place_piece_of_safe hWF.rect hs0
      obtain ⟨b2, hseed, hWF2, hsize⟩ := ih (placeBoard b { pos_x := c.1, pos_y := c.2 })
        (WF_placeBoard hWF hs0)
        (fun e he => by rw [placeBoard_board_size]; exact hin e (List.mem_cons_of_mem c he))
      refine ⟨b2, ?_, hWF2, by rw [hsize, placeBoard_board_size]⟩
      unfold seedLoop
      rw [hpl]
      simpa using hseed
    | false =>
      have hpl := place_piece_of_failed_check hWF.rect
        ⟨show -(b.board_size : Int) ≤ c.1 by omega, hcb.2.1⟩
        ⟨show -(b.board_size : Int) ≤ c.2 by omega, hcb.2.2.2⟩ hs0
      obtain ⟨b2, hseed, hWF2, hsize⟩ := ih b hWF
        (fun e he => hin e (List.mem_cons_of_mem c he))
      refine ⟨b2, ?_, hWF2, hsize⟩
      unfold seedLoop
      rw [hpl]
      simpa using hseed

/-! ### Claim theorems -/

/-- Claim C1: for every (well-formed, possibly pre-seeded) board and count `l`
of pieces still to place, the engine run `find_solutions` terminates with the
board restored and records exactly the coordinate sets reachable by adding
`l` pieces one at a time, each addition passing `is_position_safe` at the
time of its addition; in particular for N=3, L=1, K=1 with the pre-placed
piece at (1,1) the recorded completions are exactly the four corners. -/
theorem chess_c1_search_enumerates_reachable (b : ChessBoard) (l : Nat)
    (found : Finset (Finset (Int × Int))) (hWF : WF b) :
    (∃ found2, find_solutions b [List.replicate l ' '] found = some (found2, b) ∧
      ∀ s, s ∈ found2 ↔ s ∈ found ∨ Reachable b l s) ∧
    (∃ b3 arrs, create_board 3 1 1 [(1, 1)] = some (b3, arrs) ∧
      find_solutions b3 arrs ∅ =
        some ({({((0 : Int), (0 : Int)), (1, 1)} : Finset (Int × Int)),
               {(0, 2), (1, 1)}, {(2, 0), (1, 1)}, {(2, 2), (1, 1)}}, b3)) := by
  constructor
  · obtain ⟨found2, heq, hmem⟩ := find_solutions_spec [List.replicate l ' '] b found hWF
    refine ⟨found2, heq, fun s => ?_⟩
    rw [hmem s]
    constructor
    · rintro (h | ⟨arr, harr, hre⟩)
      · exact Or.inl h
      · rw [List.mem_singleton] at harr
        subst harr
        rw [List.length_replicate] at hre
        exact Or.inr hre
    · rintro (h | h)
      · exact Or.inl h
      · exact Or.inr ⟨List.replicate l ' ', List.mem_singleton_self _,
          by rw [List.length_replicate]; exact h⟩
  · rw [← scenarioB_iff]
    decide

/-- Claim C1 witness at board `ChessBoard.init 3`, `l = 1`, empty collector. -/
theorem chess_c1_witness :
    WF (ChessBoard.init 3) ∧
    ((∃ found2, find_solutions (ChessBoard.init 3) [List.replicate 1 ' '] ∅ =
        some (found2, ChessBoard.init 3) ∧
      ∀ s, s ∈ found2 ↔ s ∈ (∅ : Finset (Finset (Int × Int))) ∨
        Reachable (ChessBoard.init 3) 1 s) ∧
    (∃ b3 arrs, create_board 3 1 1 [(1, 1)] = some (b3, arrs) ∧
      find_solutions b3 arrs ∅ =
        some ({({((0 : Int), (0 : Int)), (1, 1)} : Finset (Int × Int)),
               {(0, 2), (1, 1)}, {(2, 0), (1, 1)}, {(2, 2), (1, 1)}}, b3))) :=
  ⟨WF_init 3, chess_c1_search_enumerates_reachable (ChessBoard.init 3) 1 ∅ (WF_init 3)⟩

end Chess

namespace Chess

/-- Claim C2 counterexample: the pre-placed coordinates (0,0) and (1,0)
mutually threaten each other, yet `create_board` does not fail: it returns a
board on which the first piece is still placed (a partial mutation) and the
unsafe second piece was silently skipped, so no error precedes the search. -/
theorem chess_c2_counterexample :
    threatens { pos_x := 0, pos_y := 0 } 1 0 ∧
    (create_board 3 1 2 [(0, 0), (1, 0)]).map (fun r => r.1.placed_pieces) =
      some [{ pos_x := 0, pos_y := 0 }] := by
  decide

/-- Claim C2 (amended): `create_board` never raises on in-bounds pre-placed
coordinates (it silently skips unsafe ones), and the GUI dialog's
`_check_safety` returns `false` for every in-bounds pre-placement list
containing a colliding or mutually threatening pair, which is what prevents
the search from being started on such input. -/
theorem chess_c2_dialog_rejects_threats (n l : Nat) (k : Int)
    (coords : List (Int × Int))
    (hin : ∀ c ∈ coords, 0 ≤ c.1 ∧ c.1 < (n : Int) ∧ 0 ≤ c.2 ∧ c.2 < (n : Int))
    (hbad : ∃ a c, List.Sublist [a, c] coords ∧ (a = c ∨
      threatens { pos_x := a.1, pos_y := a.2 } c.1 c.2 ∨
      threatens { pos_x := c.1, pos_y := c.2 } a.1 a.2)) :
    check_safety coords n = some false ∧
    ∃ b arrs, create_board n l k coords = some (b, arrs) := by
  have hWF0 : WF (ChessBoard.init n) := WF_init n
  have hin0 : ∀ c ∈ coords, 0 ≤ c.1 ∧ c.1 < ((ChessBoard.init n).board_size : Int) ∧
      0 ≤ c.2 ∧ c.2 < ((ChessBoard.init n).board_size : Int) := hin
  constructor
  · obtain ⟨v, hv⟩ := check_safety_loop_isSome coords (ChessBoard.init n) hWF0 hin0
    cases v with
    | false => exact hv
    | true =>
      exfalso
      obtain ⟨-, hpair⟩ := check_safety_loop_pairwise coords (ChessBoard.init n) hWF0 hv
      obtain ⟨a, c, hsub, hcase⟩ := hbad
      have hpair2 := hpair.sublist hsub
      rw [List.pairwise_cons] at hpair2
      have hac := hpair2.1 c (List.mem_singleton_self c)
      rcases hcase with h | h | h
      · exact hac (Or.inl h)
      · exact hac (Or.inr h)
      · refine hac (Or.inr ?_)
        have := threatens_symm h
        exact this
  · unfold create_board
    by_cases hk : 0 < k
    · rw [if_pos hk]
      obtain ⟨b2, hseed, -, -⟩ := seedLoop_total coords (ChessBoard.init n) hWF0 hin0
      rw [hseed]
      exact ⟨b2, [List.replicate l ' '], rfl⟩
    · rw [if_neg hk]
      exact ⟨ChessBoard.init n, [List.replicate l ' '], rfl⟩

/-- Claim C2 witness: K=2 pre-placed at (0,0) and (1,0) on a 3×3 board. -/
theorem chess_c2_witness :
    (∀ c ∈ [((0 : Int), (0 : Int)), (1, 0)],
      0 ≤ c.1 ∧ c.1 < ((3 : Nat) : Int) ∧ 0 ≤ c.2 ∧ c.2 < ((3 : Nat) : Int)) ∧
    (∃ a c, List.Sublist [a, c] [((0 : Int), (0 : Int)), (1, 0)] ∧ (a = c ∨
      threatens { pos_x := a.1, pos_y := a.2 } c.1 c.2 ∨
      threatens { pos_x := c.1, pos_y := c.2 } a.1 a.2)) ∧
    (check_safety [((0 : Int), (0 : Int)), (1, 0)] 3 = some false ∧
      ∃ b arrs, create_board 3 1 2 [((0 : Int), (0 : Int)), (1, 0)] = some (b, arrs)) :=
  ⟨by decide,
   ⟨(0, 0), (1, 0), by decide, Or.inr (Or.inl (by decide))⟩,
   chess_c2_dialog_rejects_threats 3 1 2 [((0 : Int), (0 : Int)), (1, 0)]
     (by decide)
     ⟨(0, 0), (1, 0), by decide, Or.inr (Or.inl (by decide))⟩⟩

/-- Claim C3 counterexample: for the out-of-bounds candidate (0,1) on a 1×1
board the safety predicate is false, yet `place_piece` does not return
`false` — the unguarded emptiness lookup raises `IndexError` (`none`). -/
theorem chess_c3_counterexample :
    is_position_safe (ChessBoard.init 1) { pos_x := 0, pos_y := 1 } = some false ∧
    place_piece (ChessBoard.init 1) { pos_x := 0, pos_y := 1 } = none := by
  decide

/-- Claim C3 (amended): for candidates whose coordinates are within Python's
indexable range `[-N, N)`, `place_piece` returns `false` with the board
completely unchanged whenever the safety predicate is false, and otherwise
writes the piece into its cell, appends it to the placed list, recomputes all
threat flags via `update_threatened_cells`, and returns `true`. -/
theorem chess_c3_place_semantics (b : ChessBoard) (p : ChessFigure) (hr : Rect b)
    (hx : -(b.board_size : Int) ≤ p.pos_x ∧ p.pos_x < (b.board_size : Int))
    (hy : -(b.board_size : Int) ≤ p.pos_y ∧ p.pos_y < (b.board_size : Int)) :
    (is_position_safe b p = some false → place_piece b p = some (false, b)) ∧
    (is_position_safe b p = some true →
      place_piece b p = some (true, update_threatened_cells { b with
        cells := setAt b.cells p.pos_y.toNat fun r2 => setAt r2 p.pos_x.toNat fun c =>
          { c with piece := some p }
        placed_pieces := b.placed_pieces ++ [p] })) :=
  ⟨fun hs => place_piece_of_failed_check hr hx hy hs,
   fun hs => place_piece_of_safe hr hs⟩

/-- Claim C3 witness at the fresh 2×2 board and candidate (0,0). -/
theorem chess_c3_witness :
    Rect (ChessBoard.init 2) ∧
    ((-((ChessBoard.init 2).board_size : Int) ≤ (0 : Int) ∧
      (0 : Int) < ((ChessBoard.init 2).board_size : Int)) ∧
     (-((ChessBoard.init 2).board_size : Int) ≤ (0 : Int) ∧
      (0 : Int) < ((ChessBoard.init 2).board_size : Int))) ∧
    ((is_position_safe (ChessBoard.init 2) { pos_x := 0, pos_y := 0 } = some false →
      place_piece (ChessBoard.init 2) { pos_x := 0, pos_y := 0 } =
        some (false, ChessBoard.init 2)) ∧
     (is_position_safe (ChessBoard.init 2) { pos_x := 0, pos_y := 0 } = some true →
      place_piece (ChessBoard.init 2) { pos_x := 0, pos_y := 0 } =
        some (true, update_threatened_cells { ChessBoard.init 2 with
          cells := setAt (ChessBoard.init 2).cells (0 : Int).toNat fun r2 =>
            setAt r2 (0 : Int).toNat fun c =>
              { c with piece := some { pos_x := 0, pos_y := 0 } }
          placed_pieces := (ChessBoard.init 2).placed_pieces ++
            [{ pos_x := 0, pos_y := 0 }] }))) :=
  ⟨(WF_init 2).rect, ⟨⟨by decide, by decide⟩, ⟨by decide, by decide⟩⟩,
   chess_c3_place_semantics (ChessBoard.init 2) { pos_x := 0, pos_y := 0 }
     (WF_init 2).rect ⟨by decide, by decide⟩ ⟨by decide, by decide⟩⟩

/-- Claim C4: on a rectangular board the safety predicate is false exactly
when the coordinate is out of bounds, or the cell is occupied, or a placed
piece's offset list reaches the candidate, or the candidate's offset list
reaches a placed piece (the last two are equivalent because the move pattern
is closed under negation); moreover the threat relation is symmetric. -/
theorem chess_c4_safety_characterisation (b : ChessBoard) (p : ChessFigure)
    (hr : Rect b) :
    (is_position_safe b p = some false ↔
      (¬ (0 ≤ p.pos_x ∧ p.pos_x < (b.board_size : Int) ∧
          0 ≤ p.pos_y ∧ p.pos_y < (b.board_size : Int)) ∨
       is_position_empty b p.pos_x p.pos_y = some false ∨
       (∃ q ∈ b.placed_pieces, threatens q p.pos_x p.pos_y) ∨
       (∃ q ∈ b.placed_pieces, threatens p q.pos_x q.pos_y))) ∧
    (∀ (a : ChessFigure) (x y : Int), threatens a x y →
      threatens { pos_x := x, pos_y := y } a.pos_x a.pos_y) := by
  constructor
  · rw [is_position_safe_false_iff hr]
    constructor
    · intro hns
      by_cases hbnd : 0 ≤ p.pos_x ∧ p.pos_x < (b.board_size : Int) ∧
          0 ≤ p.pos_y ∧ p.pos_y < (b.board_size : Int)
      · obtain ⟨hx0, hx1, hy0, hy1⟩ := hbnd
        obtain ⟨c, hc⟩ := cellAt_isSome_of_lt hr (x := p.pos_x.toNat) (y := p.pos_y.toNat)
          (by omega) (by omega)
        by_cases hemp : c.piece = none
        · have hth : ¬ ∀ q ∈ b.placed_pieces, ¬ threatens q p.pos_x p.pos_y :=
            fun hforall => hns ⟨⟨hx0, hx1, hy0, hy1⟩, ⟨c, hc, hemp⟩, hforall⟩
          push_neg at hth
          obtain ⟨q, hq, hqth⟩ := hth
          exact Or.inr (Or.inr (Or.inl ⟨q, hq, hqth⟩))
        · refine Or.inr (Or.inl ?_)
          rw [is_position_empty_def, pyGet2_eq_cellAt hr hx0 hx1 hy0 hy1, hc]
          simp only [Option.map_some', Option.some_inj]
          rw [← Bool.not_eq_true, Option.isNone_iff_eq_none]
          exact hemp
      · exact Or.inl hbnd
    · rintro (h | h | h | h) hsp
      · exact h hsp.1
      · obtain ⟨⟨hx0, hx1, hy0, hy1⟩, ⟨c, hc, hnone⟩, -⟩ := hsp
        rw [is_position_empty_def, pyGet2_eq_cellAt hr hx0 hx1 hy0 hy1, hc] at h
        simp only [Option.map_some', Option.some_inj] at h
        rw [hnone] at h
        simp at h
      · obtain ⟨q, hq, hth⟩ := h
        exact hsp.2.2 q hq hth
      · obtain ⟨q, hq, hth⟩ := h
        exact hsp.2.2 q hq (threatens_symm hth)
  · exact fun a x y h => threatens_symm h

/-- Claim C4 witness at the fresh 2×2 board and candidate (0,0). -/
theorem chess_c4_witness :
    Rect (ChessBoard.init 2) ∧
    ((is_position_safe (ChessBoard.init 2) { pos_x := 0, pos_y := 0 } = some false ↔
      (¬ (0 ≤ (0 : Int) ∧ (0 : Int) < ((ChessBoard.init 2).board_size : Int) ∧
          0 ≤ (0 : Int) ∧ (0 : Int) < ((ChessBoard.init 2).board_size : Int)) ∨
       is_position_empty (ChessBoard.init 2) 0 0 = some false ∨
       (∃ q ∈ (ChessBoard.init 2).placed_pieces, threatens q 0 0) ∨
       (∃ q ∈ (ChessBoard.init 2).placed_pieces,
         threatens { pos_x := 0, pos_y := 0 } q.pos_x q.pos_y))) ∧
     (∀ (a : ChessFigure) (x y : Int), threatens a x y →
       threatens { pos_x := x, pos_y := y } a.pos_x a.pos_y)) :=
  ⟨(WF_init 2).rect,
   chess_c4_safety_characterisation (ChessBoard.init 2) { pos_x := 0, pos_y := 0 }
     (WF_init 2).rect⟩

end Chess

namespace Chess

/-- Claim C5: starting from a well-formed board, every successful
`place_piece` and every (non-raising) `remove_piece` yields a board
satisfying the full invariant `WF` — in particular each cell's occupant is
the unique placed piece whose coordinates point there, and every cell's
`threatened` flag agrees exactly with a full recomputation over the current
placed-piece set. -/
theorem chess_c5_invariant_preserved (b : ChessBoard) (p : ChessFigure) (hWF : WF b) :
    (∀ b2, place_piece b p = some (true, b2) → WF b2 ∧
      ∀ x y : Nat, ∀ c, cellAt b2 x y = some c →
        (c.threatened = true ↔ ∃ q ∈ b2.placed_pieces, threatens q (x : Int) (y : Int))) ∧
    (∀ b3, remove_piece b p = some b3 → WF b3 ∧
      ∀ x y : Nat, ∀ c, cellAt b3 x y = some c →
        (c.threatened = true ↔ ∃ q ∈ b3.placed_pieces, threatens q (x : Int) (y : Int))) := by
  constructor
  · intro b2 hpl
    obtain ⟨hsafe, hb2⟩ := (place_piece_true_iff hWF.rect p).mp hpl
    subst hb2
    have hWF2 := WF_placeBoard hWF hsafe
    exact ⟨hWF2, hWF2.threat_ok⟩
  · intro b3 hrm
    have hWF3 := WF_remove hWF hrm
    exact ⟨hWF3, hWF3.threat_ok⟩

/-- Claim C5 witness at the fresh 3×3 board and piece (0,0). -/
theorem chess_c5_witness :
    WF (ChessBoard.init 3) ∧
    ((∀ b2, place_piece (ChessBoard.init 3) { pos_x := 0, pos_y := 0 } = some (true, b2) →
        WF b2 ∧ ∀ x y : Nat, ∀ c, cellAt b2 x y = some c →
          (c.threatened = true ↔ ∃ q ∈ b2.placed_pieces,
            threatens q (x : Int) (y : Int))) ∧
     (∀ b3, remove_piece (ChessBoard.init 3) { pos_x := 0, pos_y := 0 } = some b3 →
        WF b3 ∧ ∀ x y : Nat, ∀ c, cellAt b3 x y = some c →
          (c.threatened = true ↔ ∃ q ∈ b3.placed_pieces,
            threatens q (x : Int) (y : Int)))) :=
  ⟨WF_init 3, chess_c5_invariant_preserved (ChessBoard.init 3)
    { pos_x := 0, pos_y := 0 } (WF_init 3)⟩

/-- Claim C6: `save_results` writes one line per stored solution, each line
being the solution's coordinate pairs formatted `"(x, y)"` and joined by
single spaces; an empty solution set produces exactly the single literal line
`"no solutions"`; and for N=1, L=2, K=0 the engine indeed produces the empty
solution set, so that run's file is exactly the "no solutions" line. -/
theorem chess_c6_persistence_format (sols : List (List (Int × Int))) (hne : sols ≠ []) :
    save_results sols = sols.map (fun sol => String.intercalate " "
      (sol.map fun c => "(" ++ toString c.1 ++ ", " ++ toString c.2 ++ ")")) ∧
    save_results [] = ["no solutions"] ∧
    (∃ b arrs, create_board 1 2 0 [] = some (b, arrs) ∧
      find_solutions b arrs ∅ = some (∅, b)) := by
  refine ⟨?_, rfl, ?_⟩
  · unfold save_results fmtSolution fmtCoord
    rw [if_pos hne]
  · rw [← scenarioB_iff]
    decide

/-- Claim C6 witness at the one-solution list `[[(0, 0)]]`. -/
theorem chess_c6_witness :
    ([[((0 : Int), (0 : Int))]] ≠ ([] : List (List (Int × Int)))) ∧
    (save_results [[((0 : Int), (0 : Int))]] =
        [[((0 : Int), (0 : Int))]].map (fun sol => String.intercalate " "
          (sol.map fun c => "(" ++ toString c.1 ++ ", " ++ toString c.2 ++ ")")) ∧
      save_results [] = ["no solutions"] ∧
      (∃ b arrs, create_board 1 2 0 [] = some (b, arrs) ∧
        find_solutions b arrs ∅ = some (∅, b))) :=
  ⟨by decide, chess_c6_persistence_format [[((0 : Int), (0 : Int))]] (by decide)⟩

/-- Claim C7: the collector is a set with value-based, order-independent
membership: after a run of `find_solutions`, membership of a final
coordinate set is determined only by that set (any branch reaching it yields
the same single entry, stored at most once), and every newly recorded
solution has exactly `l + placed_count` coordinates. -/
theorem chess_c7_dedup_and_size (b : ChessBoard) (l : Nat)
    (found found2 : Finset (Finset (Int × Int))) (hWF : WF b)
    (h : find_solutions b [List.replicate l ' '] found = some (found2, b)) :
    (∀ s, found2.val.count s ≤ 1) ∧
    (∀ s, s ∈ found2 ↔ s ∈ found ∨ Reachable b l s) ∧
    (∀ s ∈ found2, s ∉ found → s.card = l + b.placed_pieces.length) := by
  obtain ⟨found2x, heq, hmem⟩ := find_solutions_spec [List.replicate l ' '] b found hWF
  rw [heq] at h
  injection h with h
  have hf2 : found2x = found2 := ((Prod.mk.injEq _ _ _ _).mp h).1
  subst hf2
  have hmem2 : ∀ s, s ∈ found2x ↔ s ∈ found ∨ Reachable b l s := by
    intro s
    rw [hmem s]
    constructor
    · rintro (hh | ⟨arr, harr, hre⟩)
      · exact Or.inl hh
      · rw [List.mem_singleton] at harr
        subst harr
        rw [List.length_replicate] at hre
        exact Or.inr hre
    · rintro (hh | hh)
      · exact Or.inl hh
      · exact Or.inr ⟨List.replicate l ' ', List.mem_singleton_self _,
          by rw [List.length_replicate]; exact hh⟩
  refine ⟨?_, hmem2, ?_⟩
  · intro s
    exact Multiset.nodup_iff_count_le_one.mp found2x.nodup s
  · intro s hs hnotin
    rcases (hmem2 s).mp hs with hh | hh
    · exact absurd hh hnotin
    · exact Reachable_card hh hWF

/-- Claim C7 witness: the run on a fresh 1×1 board with one piece to place. -/
theorem chess_c7_witness :
    WF (ChessBoard.init 1) ∧
    find_solutions (ChessBoard.init 1) [List.replicate 1 ' '] ∅ =
      some ({({((0 : Int), (0 : Int))} : Finset (Int × Int))}, ChessBoard.init 1) ∧
    ((∀ s, ({({((0 : Int), (0 : Int))} : Finset (Int × Int))} :
        Finset (Finset (Int × Int))).val.count s ≤ 1) ∧
     (∀ s, s ∈ ({({((0 : Int), (0 : Int))} : Finset (Int × Int))} :
        Finset (Finset (Int × Int))) ↔
        s ∈ (∅ : Finset (Finset (Int × Int))) ∨ Reachable (ChessBoard.init 1) 1 s) ∧
     (∀ s ∈ ({({((0 : Int), (0 : Int))} : Finset (Int × Int))} :
        Finset (Finset (Int × Int))), s ∉ (∅ : Finset (Finset (Int × Int))) →
        s.card = 1 + (ChessBoard.init 1).placed_pieces.length)) :=
  ⟨WF_init 1, by rw [← resEqB_iff]; decide,
   chess_c7_dedup_and_size (ChessBoard.init 1) 1 ∅ _ (WF_init 1)
     (by rw [← resEqB_iff]; decide)⟩

/-- Claim C8: with zero pieces to place the engine records exactly one
solution: for K=0 that is the empty placement, and in general it is the
coordinate set of the pre-seeded configuration, not nothing. -/
theorem chess_c8_l_zero_records_one (n : Nat) (b : ChessBoard) :
    create_board n 0 0 [] = some (ChessBoard.init n, [[]]) ∧
    find_solutions (ChessBoard.init n) [[]] ∅ =
      some ({(∅ : Finset (Int × Int))}, ChessBoard.init n) ∧
    find_solutions b [[]] ∅ = some ({coordSet b.placed_pieces}, b) := by
  refine ⟨?_, rfl, rfl⟩
  unfold create_board
  rw [if_neg (by omega)]
  rfl

/-- Claim C9 counterexample: the piece (-1, 3) on a 3×3 board has a negative
x coordinate not less than -3, yet `place_piece` raises (`none`) instead of
returning `false`, because the y coordinate 3 makes the emptiness lookup
overflow the row list. -/
theorem chess_c9_counterexample :
    ((-3 : Int) ≤ -1 ∧ (-1 : Int) < 0) ∧
    place_piece (ChessBoard.init 3) { pos_x := -1, pos_y := 3 } = none := by
  decide

/-- Claim C9 (amended): when both coordinates lie in Python's indexable range
`[-N, N)` and at least one is negative, `place_piece` returns `false`,
raises nothing, and leaves the board unchanged: the emptiness check reads a
wrapped cell, but the bounds check inside the safety predicate rejects the
placement before any mutation. -/
theorem chess_c9_negative_coordinates_rejected (b : ChessBoard) (x y : Int)
    (hr : Rect b)
    (hx : -(b.board_size : Int) ≤ x ∧ x < (b.board_size : Int))
    (hy : -(b.board_size : Int) ≤ y ∧ y < (b.board_size : Int))
    (hneg : x < 0 ∨ y < 0) :
    place_piece b { pos_x := x, pos_y := y } = some (false, b) := by
  apply place_piece_of_failed_check hr hx hy
  apply is_position_safe_oob
  dsimp only
  omega

/-- Claim C9 witness at the fresh 3×3 board and coordinates (-1, 0). -/
theorem chess_c9_witness :
    Rect (ChessBoard.init 3) ∧
    (-(((ChessBoard.init 3).board_size : Nat) : Int) ≤ (-1 : Int) ∧
      (-1 : Int) < (((ChessBoard.init 3).board_size : Nat) : Int)) ∧
    (-(((ChessBoard.init 3).board_size : Nat) : Int) ≤ (0 : Int) ∧
      (0 : Int) < (((ChessBoard.init 3).board_size : Nat) : Int)) ∧
    ((-1 : Int) < 0 ∨ (0 : Int) < 0) ∧
    place_piece (ChessBoard.init 3) { pos_x := -1, pos_y := 0 } =
      some (false, ChessBoard.init 3) :=
  ⟨(WF_init 3).rect, ⟨by decide, by decide⟩, ⟨by decide, by decide⟩,
   Or.inl (by decide),
   chess_c9_negative_coordinates_rejected (ChessBoard.init 3) (-1) 0
     (WF_init 3).rect ⟨by decide, by decide⟩ ⟨by decide, by decide⟩
     (Or.inl (by decide))⟩

/-- Claim C10: the solver's accumulated solution set only grows and is never
cleared: after a second `find_solutions` call that starts from the set `S1`
left by a first call, every earlier solution is still present, and the final
set is exactly the union of `S1` with the second run's own solutions. -/
theorem chess_c10_solutions_accumulate (b b2 : ChessBoard)
    (arrs arrs2 : List (List Char))
    (found0 S1 S2 : Finset (Finset (Int × Int))) (hWF : WF b) (hWF2 : WF b2)
    (h1 : find_solutions b arrs found0 = some (S1, b))
    (h2 : find_solutions b2 arrs2 S1 = some (S2, b2)) :
    S1 ⊆ S2 ∧ ∃ R2, find_solutions b2 arrs2 ∅ = some (R2, b2) ∧ S2 = S1 ∪ R2 := by
  obtain ⟨S2x, heq, hmem⟩ := find_solutions_spec arrs2 b2 S1 hWF2
  rw [heq] at h2
  injection h2 with h2
  have hS2 : S2x = S2 := ((Prod.mk.injEq _ _ _ _).mp h2).1
  subst hS2
  obtain ⟨R2, heqR, hmemR⟩ := find_solutions_spec arrs2 b2 ∅ hWF2
  refine ⟨?_, R2, heqR, ?_⟩
  · intro s hs
    exact (hmem s).mpr (Or.inl hs)
  · apply Finset.ext
    intro s
    rw [Finset.mem_union, hmem s, hmemR s]
    simp

/-- Claim C10 witness: two successive runs on fresh 1×1 boards. -/
theorem chess_c10_witness :
    WF (ChessBoard.init 1) ∧
    find_solutions (ChessBoard.init 1) [[' ']] ∅ =
      some (({({((0 : Int), (0 : Int))} : Finset (Int × Int))} :
        Finset (Finset (Int × Int))), ChessBoard.init 1) ∧
    find_solutions (ChessBoard.init 1) [[' ']]
        ({({((0 : Int), (0 : Int))} : Finset (Int × Int))} :
          Finset (Finset (Int × Int))) =
      some (({({((0 : Int), (0 : Int))} : Finset (Int × Int))} :
        Finset (Finset (Int × Int))), ChessBoard.init 1) ∧
    (({({((0 : Int), (0 : Int))} : Finset (Int × Int))} :
        Finset (Finset (Int × Int))) ⊆
      ({({((0 : Int), (0 : Int))} : Finset (Int × Int))} :
        Finset (Finset (Int × Int))) ∧
     ∃ R2, find_solutions (ChessBoard.init 1) [[' ']] ∅ =
        some (R2, ChessBoard.init 1) ∧
      ({({((0 : Int), (0 : Int))} : Finset (Int × Int))} :
        Finset (Finset (Int × Int))) =
        ({({((0 : Int), (0 : Int))} : Finset (Int × Int))} :
          Finset (Finset (Int × Int))) ∪ R2) :=
  ⟨WF_init 1, by rw [← resEqB_iff]; decide, by rw [← resEqB_iff]; decide,
   chess_c10_solutions_accumulate (ChessBoard.init 1) (ChessBoard.init 1)
     [[' ']] [[' ']] ∅ _ _ (WF_init 1) (WF_init 1)
     (by rw [← resEqB_iff]; decide) (by rw [← resEqB_iff]; decide)⟩

end Chess
